import Mathlib

/-!
Verification of the graph-filtering core of the What'sWrong SVG annotation
viewer: the data model (Token, Edge, NLPInstance), the label filter
(EdgeLabelFilter.py), and the property/path filter with its path-enumeration
engine and collapse/reindex step (EdgeTokenFilter.py).

Python lists are modelled as List.  Python sets and dicts are modelled as
duplicate-free lists maintained by insert-if-absent (iteration order over a
Python set/dict is arbitrary; the insertion order is one fixed choice).
Operations that can raise (IndexError / KeyError) return Option.
-/

set_option maxRecDepth 10000

/-- One word/unit of a sentence.  Modelled from the spec: the concrete class
lives in Token.py, which is not among the sources; per the spec a token
carries an integer `index` (dense 0..n-1 within an instance, also exposed as
the sort key int_index) and a mapping from property name to property value
(both strings). -/
structure Token where
  index : Nat
  props : List (String × String)
deriving DecidableEq

/-- Render type of an edge (Edge.RenderType in the source): a binary
dependency relation or a span covering an inclusive token range. -/
inductive Edge.RenderType where
  | dependency
  | span
deriving DecidableEq

/-- A labelled relation between two tokens.  Modelled from the spec (Edge.py
is not among the sources): attributes From, To, label, note, type,
renderType, description; two edges are equal iff all attributes match
structurally. -/
structure Edge where
  From : Token
  To : Token
  label : String
  note : String
  type : String
  renderType : Edge.RenderType
  description : String
deriving DecidableEq

/-- Render type of a whole instance (NLPInstance.RenderType in the source). -/
inductive NLPInstance.RenderType where
  | single
  | alignment
deriving DecidableEq

/-- One sentence/graph.  Modelled from the spec (NLPInstance.py is not among
the sources): an ordered token sequence, an edge collection, a render type
and a sequence of split points. -/
structure NLPInstance where
  tokens : List Token
  edges : List Edge
  renderType : NLPInstance.RenderType
  splitPoints : List Nat
deriving DecidableEq

/-- Modelled from the spec: `original.getToken(index=i)` returns the token of
the instance at position i.  In the source an out-of-range index would raise;
every call site reached from well-formed input is in range, so the default
value is junk that is never observed there. -/
def NLPInstance.getToken (inst : NLPInstance) (i : Nat) : Token :=
  inst.tokens.getD i ⟨0, []⟩

/-- Contiguous, case-sensitive substring test (the Python `needle in hay`
test on strings), on the underlying character lists. -/
def strContainsSub (hay needle : String) : Bool :=
  decide (needle.toList <:+: hay.toList)

/-- Modelled from the spec: `Token.propertiesContain(substrings, wholeWord)`
lives in Token.py, which is not among the sources.  Per the spec a token
qualifies iff wholeWord is false and some property value of the token
contains some allowed string as a substring, or wholeWord is true and some
property value exactly equals some allowed string. -/
def Token.propertiesContain (t : Token) (substrings : List String)
    (wholeWord : Bool) : Bool :=
  t.props.any fun p =>
    substrings.any fun a =>
      if wholeWord then p.2 == a else strContainsSub p.2 a

/-- Python set.add on a set of strings (the allowed-value sets of the two
filters): no-op when an equal string is present. -/
def strSetAdd (s : List String) (v : String) : List String :=
  if v ∈ s then s else s ++ [v]

/-- State of an EdgeLabelFilter: the set of allowed label substrings. -/
structure EdgeLabelFilter where
  allowedLabels : List String
deriving DecidableEq

/-- EdgeLabelFilter.addAllowedLabel (EdgeLabelFilter.py line 33-34). -/
def EdgeLabelFilter.addAllowedLabel (self : EdgeLabelFilter) (label : String) :
    EdgeLabelFilter :=
  ⟨strSetAdd self.allowedLabels label⟩

/-- EdgeLabelFilter.removeAllowedLabel (EdgeLabelFilter.py line 41-42).
Python's set.remove raises KeyError when the element is absent; that error
state is not exercised by any claim. -/
def EdgeLabelFilter.removeAllowedLabel (self : EdgeLabelFilter) (label : String) :
    EdgeLabelFilter :=
  ⟨self.allowedLabels.erase label⟩

/-- EdgeLabelFilter.clear (EdgeLabelFilter.py line 47-48). -/
def EdgeLabelFilter.clear (_self : EdgeLabelFilter) : EdgeLabelFilter :=
  ⟨[]⟩

/-- The inner loop of EdgeLabelFilter.filterEdges (lines 63-66): iterate the
allowed substrings, and on the first one contained in the label append the
edge and break.  The iteration order over the Python set is arbitrary; only
the existence of a match is observable. -/
def EdgeLabelFilter.labelMatches (allowed : List String) (label : String) : Bool :=
  match allowed with
  | [] => false
  | a :: rest =>
    if strContainsSub label a then true else EdgeLabelFilter.labelMatches rest label

/-- EdgeLabelFilter.filterEdges (EdgeLabelFilter.py lines 58-67): identity on
an empty allowed set, otherwise one pass over the input appending each edge
whose label contains some allowed substring. -/
def EdgeLabelFilter.filterEdges (self : EdgeLabelFilter) (original : List Edge) :
    List Edge :=
  if self.allowedLabels.length = 0 then original
  else
    original.foldl
      (fun result edge =>
        if EdgeLabelFilter.labelMatches self.allowedLabels edge.label then
          result ++ [edge]
        else result)
      []

/-- EdgeLabelFilter.allows (EdgeLabelFilter.py lines 75-76): exact membership
in the allowed set. -/
def EdgeLabelFilter.allows (self : EdgeLabelFilter) (label : String) : Bool :=
  decide (label ∈ self.allowedLabels)

/-- State of an EdgeTokenFilter (EdgeTokenFilter.py lines 23-47), fields in
constructor order: _usePath, _collaps, _wholeWords, _allowedProperties. -/
structure EdgeTokenFilter where
  usePath : Bool
  collaps : Bool
  wholeWords : Bool
  allowedProperties : List String
deriving DecidableEq

/-- EdgeTokenFilter.addAllowedProperty (EdgeTokenFilter.py lines 96-97). -/
def EdgeTokenFilter.addAllowedProperty (self : EdgeTokenFilter)
    (propertyValue : String) : EdgeTokenFilter :=
  ⟨self.usePath, self.collaps, self.wholeWords,
    strSetAdd self.allowedProperties propertyValue⟩

/-- EdgeTokenFilter.removeAllowedProperty (EdgeTokenFilter.py lines 104-105).
As with set.remove above, removal of an absent element raises in Python. -/
def EdgeTokenFilter.removeAllowedProperty (self : EdgeTokenFilter)
    (propertyValue : String) : EdgeTokenFilter :=
  ⟨self.usePath, self.collaps, self.wholeWords,
    self.allowedProperties.erase propertyValue⟩

/-- EdgeTokenFilter.allows (EdgeTokenFilter.py lines 277-278): exact
membership in the allowed property-value set. -/
def EdgeTokenFilter.allows (self : EdgeTokenFilter) (propertyValue : String) : Bool :=
  decide (propertyValue ∈ self.allowedProperties)

/-- Python set.add on a set of edges (a Path object, EdgeTokenFilter.py lines
114-119, is a set of edges): no-op when an equal edge is present. -/
def EdgeTokenFilter.edgeSetAdd (s : List Edge) (e : Edge) : List Edge :=
  if e ∈ s then s else s ++ [e]

/-- Python set.update on a set of edges: add every element of the second
set. -/
def EdgeTokenFilter.edgeSetUpdate (s : List Edge) (p : List Edge) : List Edge :=
  p.foldl EdgeTokenFilter.edgeSetAdd s

/-- Python set.add on a set of Paths: Path equality and hashing are defined
over the edge-set content (Path.__hash__, lines 115-119, sums the element
hashes; set equality compares contents), so the membership test compares the
edge sets. -/
def EdgeTokenFilter.pathSetAdd (s : List (List Edge)) (path : List Edge) :
    List (List Edge) :=
  if s.any (fun q => decide (q.toFinset = path.toFinset)) then s else s ++ [path]

/-- A Paths object (EdgeTokenFilter.Paths, lines 124-176): a dict from start
token to a dict from end token to a set of paths.  `dom` is the key list of
the outer dict, `tos f` the key list of the inner dict of f, and `map f t`
the stored path set (empty for key pairs never added, which the guarded
accessors below never expose). -/
structure EdgeTokenFilter.Paths where
  dom : List Token
  tos : Token → List Token
  map : Token → Token → List (List Edge)

/-- The empty Paths map (Paths.__init__, line 126). -/
def EdgeTokenFilter.Paths.empty : EdgeTokenFilter.Paths :=
  ⟨[], fun _ => [], fun _ _ => []⟩

/-- Paths.addPath (EdgeTokenFilter.py lines 162-170): create the inner dict
for From if absent, create the path set for the end token if absent, and add
the path to it. -/
def EdgeTokenFilter.Paths.addPath (p : EdgeTokenFilter.Paths) (From toTok : Token)
    (path : List Edge) : EdgeTokenFilter.Paths where
  dom := if From ∈ p.dom then p.dom else p.dom ++ [From]
  tos := fun f =>
    if f = From then
      (if toTok ∈ p.tos From then p.tos From else p.tos From ++ [toTok])
    else p.tos f
  map := fun f t =>
    if f = From ∧ t = toTok then EdgeTokenFilter.pathSetAdd (p.map f t) path
    else p.map f t

/-- Paths.getPaths (EdgeTokenFilter.py lines 135-140): None when From is not
a key of the outer dict; a KeyError (also modelled as none) when the end
token is not a key of the inner dict.  Every call site draws the end token
from getTos From, so the some branch is the one reached. -/
def EdgeTokenFilter.Paths.getPaths (p : EdgeTokenFilter.Paths) (From toTok : Token) :
    Option (List (List Edge)) :=
  if From ∈ p.dom then
    (if toTok ∈ p.tos From then some (p.map From toTok) else none)
  else none

/-- Paths.getTos (EdgeTokenFilter.py lines 148-153): the inner key collection
of From, or the empty dict when From is not a key. -/
def EdgeTokenFilter.Paths.getTos (p : EdgeTokenFilter.Paths) (From : Token) :
    List Token :=
  if From ∈ p.dom then p.tos From else []

/-- The result of calling `getTos()` with no argument, as the source does at
EdgeTokenFilter.py lines 201-202: the default parameter value is the `Token`
class object itself, which is never a key of the map (its keys are Token
instances), so the lookup falls into the else branch and returns the empty
dict. -/
def EdgeTokenFilter.Paths.getTosDefaultArg (_p : EdgeTokenFilter.Paths) :
    List Token :=
  []

/-- Paths.__len__ (EdgeTokenFilter.py lines 172-173): the number of keys of
the outer dict. -/
def EdgeTokenFilter.Paths.size (p : EdgeTokenFilter.Paths) : Nat :=
  p.dom.length

/-- The set of paths recorded between two tokens (getPaths, with the empty
set for absent keys); used to state properties of the Paths index. -/
def EdgeTokenFilter.Paths.pathsBetween (p : EdgeTokenFilter.Paths)
    (From toTok : Token) : List (List Edge) :=
  (p.getPaths From toTok).getD []

/-- Level 1 of calculatePaths (EdgeTokenFilter.py lines 188-194): for every
edge a one-edge path, indexed under both (From, To) and (To, From). -/
def EdgeTokenFilter.level1Paths (edges : List Edge) : EdgeTokenFilter.Paths :=
  edges.foldl
    (fun paths edge =>
      (paths.addPath edge.From edge.To [edge]).addPath edge.To edge.From [edge])
    EdgeTokenFilter.Paths.empty

/-- The body of one iteration of the while loop of calculatePaths
(EdgeTokenFilter.py lines 198-210).  Both `previous.getTos()` (line 201) and
`first.getTos()` (line 202) are called without an argument, so they return
the empty dict (see getTosDefaultArg): the two inner loops iterate zero
times, and the innermost loops over path1/path2 with the composition body
(lines 203-210; on Python 3 that body would in any case fail at
`iter(path1).next()` before comparing type prefixes) are unreachable.  The
iteration therefore always produces an empty Paths object. -/
def EdgeTokenFilter.whileBody (previous first : EdgeTokenFilter.Paths) :
    EdgeTokenFilter.Paths :=
  previous.dom.foldl
    (fun paths _From =>
      previous.getTosDefaultArg.foldl
        (fun paths _over =>
          first.getTosDefaultArg.foldl (fun paths _toTok => paths) paths)
        paths)
    EdgeTokenFilter.Paths.empty

/-- The result-collection loop of calculatePaths (EdgeTokenFilter.py lines
216-221): copy every (From, toTok, path) triple of one collected level into
the accumulated result. -/
def EdgeTokenFilter.collectOne (p : EdgeTokenFilter.Paths)
    (acc : EdgeTokenFilter.Paths) : EdgeTokenFilter.Paths :=
  p.dom.foldl
    (fun result From =>
      (p.getTos From).foldl
        (fun result toTok =>
          ((p.getPaths From toTok).getD []).foldl
            (fun result path => result.addPath From toTok path)
            result)
        result)
    acc

/-- Folds collectOne over the collected levels (EdgeTokenFilter.py line 217). -/
def EdgeTokenFilter.collectResult (levels : List EdgeTokenFilter.Paths) :
    EdgeTokenFilter.Paths :=
  levels.foldl (fun result p => EdgeTokenFilter.collectOne p result)
    EdgeTokenFilter.Paths.empty

/-- EdgeTokenFilter.calculatePaths (EdgeTokenFilter.py lines 185-222).  After
the level-1 pass the while loop runs its body once; the body always yields an
empty Paths object (see whileBody), so the source appends that empty level to
pathsPerLength (lines 211-212) and exits the loop (lines 214-215).  (Had the
body produced a non-empty level, the source would have continued iterating
without appending it - non-empty levels are only ever assigned to previous -
but that branch is unreachable.)  The result collects every recorded entry. -/
def EdgeTokenFilter.calculatePaths (edges : List Edge) : EdgeTokenFilter.Paths :=
  let first := EdgeTokenFilter.level1Paths edges
  let next := EdgeTokenFilter.whileBody first first
  let pathsPerLength := if next.size = 0 then [first, next] else [first]
  EdgeTokenFilter.collectResult pathsPerLength

/-- EdgeTokenFilter.filterEdges (EdgeTokenFilter.py lines 250-269): identity
on an empty allowed set; in path mode, the union (a Python set, modelled as a
duplicate-free list) of all paths between pairs of qualifying tokens of the
Paths index; otherwise one pass appending each edge with a qualifying
endpoint. -/
def EdgeTokenFilter.filterEdges (self : EdgeTokenFilter) (original : List Edge) :
    List Edge :=
  if self.allowedProperties.length = 0 then original
  else if self.usePath then
    let paths := EdgeTokenFilter.calculatePaths original
    paths.dom.foldl
      (fun result From =>
        if From.propertiesContain self.allowedProperties self.wholeWords then
          (paths.getTos From).foldl
            (fun result toTok =>
              if toTok.propertiesContain self.allowedProperties self.wholeWords then
                ((paths.getPaths From toTok).getD []).foldl
                  (fun result path => EdgeTokenFilter.edgeSetUpdate result path)
                  result
              else result)
            result
        else result)
      []
  else
    original.foldl
      (fun result edge =>
        if edge.From.propertiesContain self.allowedProperties self.wholeWords ||
            edge.To.propertiesContain self.allowedProperties self.wholeWords then
          result ++ [edge]
        else result)
      []

/-- Python set.add on a set of tokens. -/
def EdgeTokenFilter.tokenSetAdd (s : List Token) (t : Token) : List Token :=
  if t ∈ s then s else s ++ [t]

/-- The token-collection step of the collapse branch of EdgeTokenFilter.filter
(EdgeTokenFilter.py lines 293-301): endpoints of dependency edges, and every
token of the instance whose index lies in the inclusive From-To index range
of a span edge. -/
def EdgeTokenFilter.collapseTokens (original : NLPInstance) (edges : List Edge) :
    List Token :=
  edges.foldl
    (fun tokens e =>
      match e.renderType with
      | Edge.RenderType.dependency =>
        EdgeTokenFilter.tokenSetAdd (EdgeTokenFilter.tokenSetAdd tokens e.From) e.To
      | Edge.RenderType.span =>
        (List.range' e.From.index (e.To.index + 1 - e.From.index)).foldl
          (fun tokens i => EdgeTokenFilter.tokenSetAdd tokens (original.getToken i))
          tokens)
    []

/-- `sorted(tokens, key=attrgetter("int_index"))` (EdgeTokenFilter.py line
303): the token set sorted by original integer index. -/
def EdgeTokenFilter.sortedTokens (tokens : List Token) : List Token :=
  tokens.insertionSort (fun a b => a.index ≤ b.index)

/-- One iteration of the renumbering loop (EdgeTokenFilter.py lines 308-313):
a new token is created at index `len(updatedTokens)` carrying the properties
of `original.tokens[t.index]` (Token.merge is modelled from the spec: the
fresh token, constructed with no properties, carries forward the original
token's properties), and the old-to-new and new-to-old dicts are extended. -/
def EdgeTokenFilter.collapseStep (original : NLPInstance)
    (acc : List Token × List (Token × Token) × List (Token × Token)) (t : Token) :
    List Token × List (Token × Token) × List (Token × Token) :=
  let newToken : Token := ⟨acc.1.length, (original.getToken t.index).props⟩
  (acc.1 ++ [newToken], acc.2.1 ++ [(t, newToken)], acc.2.2 ++ [(newToken, t)])

/-- The renumbering loop over the sorted surviving tokens (EdgeTokenFilter.py
lines 305-313), producing (updatedTokens, old2new, new2old). -/
def EdgeTokenFilter.buildTokenMaps (original : NLPInstance) (sorted : List Token) :
    List Token × List (Token × Token) × List (Token × Token) :=
  sorted.foldl (EdgeTokenFilter.collapseStep original) ([], [], [])

/-- Rewriting of one surviving edge (EdgeTokenFilter.py lines 316-318):
substitute the endpoints through old2new, copying label, note, type,
renderType and description unchanged.  An absent key would raise KeyError in
the source (none here). -/
def EdgeTokenFilter.mapEdge (old2new : List (Token × Token)) (e : Edge) :
    Option Edge :=
  match List.lookup e.From old2new, List.lookup e.To old2new with
  | some f, some t => some ⟨f, t, e.label, e.note, e.type, e.renderType, e.description⟩
  | _, _ => none

/-- The edge-rewriting loop (EdgeTokenFilter.py lines 315-318): build the set
of rewritten edges (a Python set: insert-if-absent). -/
def EdgeTokenFilter.updatedEdgesOf (old2new : List (Token × Token))
    (edges : List Edge) : Option (List Edge) :=
  edges.foldlM
    (fun acc e =>
      match EdgeTokenFilter.mapEdge old2new e with
      | none => none
      | some e2 => some (EdgeTokenFilter.edgeSetAdd acc e2))
    []

/-- `updatedTokens[i]` followed by `new2old[newToken]` and `.index`
(EdgeTokenFilter.py lines 323-324 and 326-328); none models the IndexError /
KeyError of the source. -/
def EdgeTokenFilter.lookupOldIndex (updatedTokens : List Token)
    (new2old : List (Token × Token)) (i : Nat) : Option Nat :=
  match updatedTokens.get? i with
  | none => none
  | some newToken =>
    match List.lookup newToken new2old with
    | none => none
    | some oldToken => some oldToken.index

/-- The cursor advance for one split point (EdgeTokenFilter.py lines 323-328),
with an explicit structural bound: fetch the old index at the cursor (raising
when out of range), then advance while `newTokenIndex + 1 < len(tokens)` and
the old index is still below the split boundary, refetching after each
increment.  The fuel argument only makes the recursion structural: the loop
increments the cursor solely while `newTokenIndex + 1 < nTokens`, so with the
fuel `nTokens - newTokenIndex` used by splitAdvance below the fuel never runs
out while the loop condition holds (the zero-fuel branch is unreachable). -/
def EdgeTokenFilter.splitAdvanceGo (updatedTokens : List Token)
    (new2old : List (Token × Token)) (nTokens : Nat) (oldSplitPoint : Nat) :
    Nat → Nat → Option Nat
  | 0, newTokenIndex =>
    match EdgeTokenFilter.lookupOldIndex updatedTokens new2old newTokenIndex with
    | none => none
    | some oldIndex =>
      if newTokenIndex + 1 < nTokens ∧ oldIndex < oldSplitPoint then none
      else some newTokenIndex
  | fuel + 1, newTokenIndex =>
    match EdgeTokenFilter.lookupOldIndex updatedTokens new2old newTokenIndex with
    | none => none
    | some oldIndex =>
      if newTokenIndex + 1 < nTokens ∧ oldIndex < oldSplitPoint then
        EdgeTokenFilter.splitAdvanceGo updatedTokens new2old nTokens
          oldSplitPoint fuel (newTokenIndex + 1)
      else some newTokenIndex

/-- The while loop of EdgeTokenFilter.py lines 325-328 for one split point,
starting at the current cursor. -/
def EdgeTokenFilter.splitAdvance (updatedTokens : List Token)
    (new2old : List (Token × Token)) (nTokens : Nat) (oldSplitPoint : Nat)
    (newTokenIndex : Nat) : Option Nat :=
  EdgeTokenFilter.splitAdvanceGo updatedTokens new2old nTokens oldSplitPoint
    (nTokens - newTokenIndex) newTokenIndex

/-- The split-point recomputation loop (EdgeTokenFilter.py lines 320-329):
the cursor persists across split points, and each split point appends the
cursor position reached by splitAdvance. -/
def EdgeTokenFilter.newSplitPoints (updatedTokens : List Token)
    (new2old : List (Token × Token)) (nTokens : Nat) :
    List Nat → Nat → Option (List Nat)
  | [], _ => some []
  | oldSplitPoint :: rest, cursor =>
    match EdgeTokenFilter.splitAdvance updatedTokens new2old nTokens oldSplitPoint
        cursor with
    | none => none
    | some i =>
      match EdgeTokenFilter.newSplitPoints updatedTokens new2old nTokens rest i with
      | none => none
      | some tail => some (i :: tail)

/-- EdgeTokenFilter.filter (EdgeTokenFilter.py lines 287-332): filter the
edges, then either keep the original tokens and split points, or collapse:
collect surviving tokens, sort, renumber, rewrite the surviving edges and
recompute split points.  The value none models the uncaught IndexError /
KeyError exceptions of the source. -/
def EdgeTokenFilter.filter (self : EdgeTokenFilter) (original : NLPInstance) :
    Option NLPInstance :=
  let edges := self.filterEdges original.edges
  if self.collaps = false then
    some ⟨original.tokens, edges, original.renderType, original.splitPoints⟩
  else
    let tokens := EdgeTokenFilter.collapseTokens original edges
    let sorted := EdgeTokenFilter.sortedTokens tokens
    let maps := EdgeTokenFilter.buildTokenMaps original sorted
    match EdgeTokenFilter.updatedEdgesOf maps.2.1 edges with
    | none => none
    | some updatedEdges =>
      match EdgeTokenFilter.newSplitPoints maps.1 maps.2.2 tokens.length
          original.splitPoints 0 with
      | none => none
      | some splitPoints =>
        some ⟨maps.1, updatedEdges, original.renderType, splitPoints⟩

/-! ### Specification-side definitions

These definitions follow the words of the spec and the claims; the theorems
below compare them with the embedded source functions. -/

/-- The spec's survival condition for a token index: some surviving edge
either is a dependency edge with that endpoint index, or is a span edge whose
inclusive From-To index range contains the index. -/
def survivesSpec (edges : List Edge) (i : Nat) : Prop :=
  ∃ e ∈ edges,
    (e.renderType = Edge.RenderType.dependency ∧ (i = e.From.index ∨ i = e.To.index)) ∨
    (e.renderType = Edge.RenderType.span ∧ e.From.index ≤ i ∧ i ≤ e.To.index)

instance (edges : List Edge) (i : Nat) : Decidable (survivesSpec edges i) := by
  unfold survivesSpec; infer_instance

/-- The ascending list of surviving original token indices. -/
def survIdxList (edges : List Edge) (n : Nat) : List Nat :=
  (List.range n).filter fun i => decide (survivesSpec edges i)

/-- The position of the first element of the list at or after the boundary,
if any. -/
def firstAtOrAfter (l : List Nat) (boundary : Nat) : Option Nat :=
  match l with
  | [] => none
  | i :: rest =>
    if boundary ≤ i then some 0
    else (firstAtOrAfter rest boundary).map (· + 1)

/-- The spec's split-point image: the position (new index) of the first
surviving original index at or after the boundary, clamped to the last
available position when no such index exists. -/
def specSplitPoint (survIdxs : List Nat) (oldSplitPoint : Nat) : Nat :=
  match firstAtOrAfter survIdxs oldSplitPoint with
  | some j => j
  | none => survIdxs.length - 1

/-- The spec's rewriting of one surviving edge: endpoints are replaced by the
renumbered tokens (the position of the old index in the ascending surviving
index list, carrying the original token's properties); label, note, type,
renderType and description are unchanged. -/
def rewrittenEdge (original : NLPInstance) (survIdxs : List Nat) (e : Edge) :
    Edge :=
  ⟨⟨survIdxs.indexOf e.From.index, (original.getToken e.From.index).props⟩,
   ⟨survIdxs.indexOf e.To.index, (original.getToken e.To.index).props⟩,
   e.label, e.note, e.type, e.renderType, e.description⟩

/-- The spec's token-qualification predicate, in the spec's words. -/
def QualifiesSpec (allowed : List String) (wholeWords : Bool) (t : Token) : Prop :=
  (wholeWords = false ∧ ∃ p ∈ t.props, ∃ a ∈ allowed, a.toList <:+: p.2.toList) ∨
  (wholeWords = true ∧ ∃ p ∈ t.props, ∃ a ∈ allowed, p.2 = a)

/-- The endpoint tokens of an edge list (the tokens the qualification
predicate is ever applied to by filterEdges). -/
def endpointTokens (edges : List Edge) : List Token :=
  edges.foldr (fun e acc => e.From :: e.To :: acc) []

/-- Well-formedness of the token sequence: indices are dense, 0..n-1 in
order. -/
def NLPInstance.denseTokens (inst : NLPInstance) : Prop :=
  inst.tokens.map Token.index = List.range inst.tokens.length

/-- Well-formedness of an edge collection against an instance: endpoints are
the instance's tokens at their indices, and span edges have From at or before
To. -/
def NLPInstance.edgesWF (inst : NLPInstance) (edges : List Edge) : Prop :=
  ∀ e ∈ edges,
    e.From.index < inst.tokens.length ∧ e.To.index < inst.tokens.length ∧
    e.From = inst.getToken e.From.index ∧ e.To = inst.getToken e.To.index ∧
    (e.renderType = Edge.RenderType.span → e.From.index ≤ e.To.index)

/-- A well-formed instance: dense token indices, edges referencing the
instance's tokens, split points within range. -/
def NLPInstance.WellFormed (inst : NLPInstance) : Prop :=
  inst.denseTokens ∧ inst.edgesWF inst.edges ∧
  ∀ sp ∈ inst.splitPoints, sp < inst.tokens.length

instance (inst : NLPInstance) : Decidable inst.denseTokens := by
  unfold NLPInstance.denseTokens; infer_instance

instance (inst : NLPInstance) (edges : List Edge) : Decidable (inst.edgesWF edges) := by
  unfold NLPInstance.edgesWF; infer_instance

instance (inst : NLPInstance) : Decidable inst.WellFormed := by
  unfold NLPInstance.WellFormed; infer_instance

/-! ### Concrete inputs for counterexamples and witnesses -/

/-- Token A of the two-edge chain graph. -/
def tokA : Token := ⟨0, [("word", "a")]⟩

/-- Token B of the two-edge chain graph. -/
def tokB : Token := ⟨1, [("word", "b")]⟩

/-- Token C of the two-edge chain graph. -/
def tokC : Token := ⟨2, [("word", "c")]⟩

/-- The edge A-B, type "dep" (type prefix equal to edgeBC's). -/
def edgeAB : Edge :=
  ⟨tokA, tokB, "lab1", "", "dep", Edge.RenderType.dependency, ""⟩

/-- The edge B-C, type "dep" (type prefix equal to edgeAB's). -/
def edgeBC : Edge :=
  ⟨tokB, tokC, "lab2", "", "dep", Edge.RenderType.dependency, ""⟩

/-- An edge labelled "sub", for the substring/membership contrast of the
allows test. -/
def edgeSub : Edge :=
  ⟨tokA, tokB, "sub", "", "dep", Edge.RenderType.dependency, ""⟩

/-- A token whose property value contains "x" (the only qualifying token of
the concrete path-mode graph). -/
def tokX : Token := ⟨0, [("word", "x")]⟩

/-- An edge from the qualifying token X to the non-qualifying token B. -/
def edgeXB : Edge :=
  ⟨tokX, tokB, "labx", "", "dep", Edge.RenderType.dependency, ""⟩

/-- A well-formed two-token instance with one dependency edge and one split
point; filtering out its only edge and collapsing crashes the split-point
loop of the source. -/
def instTwoTok : NLPInstance :=
  ⟨[tokA, tokB], [edgeAB], NLPInstance.RenderType.single, [1]⟩

/-- A well-formed one-token instance with no edges and one split point. -/
def instOneTok : NLPInstance :=
  ⟨[tokA], [], NLPInstance.RenderType.single, [0]⟩

/-- A well-formed three-token instance with one dependency edge from B to C
and two split points; used to witness the collapse and split-point claims. -/
def instThreeTok : NLPInstance :=
  ⟨[tokA, tokB, tokC], [edgeBC], NLPInstance.RenderType.single, [1, 2]⟩

/-! ### Helper lemmas: label and property filtering -/

lemma foldl_filter_aux {α : Type} (p : α → Bool) :
    ∀ (l acc : List α),
      l.foldl (fun r e => if p e then r ++ [e] else r) acc = acc ++ l.filter p := by
  intro l
  induction l with
  | nil => intro acc; simp
  | cons x t ih =>
    intro acc
    rw [List.foldl_cons, List.filter_cons]
    by_cases h : p x = true
    · rw [if_pos h, if_pos h, ih]
      simp
    · rw [if_neg h, if_neg h, ih]

lemma labelMatches_eq_any (allowed : List String) (label : String) :
    EdgeLabelFilter.labelMatches allowed label =
      allowed.any fun a => strContainsSub label a := by
  induction allowed with
  | nil => rfl
  | cons a rest ih =>
    rw [EdgeLabelFilter.labelMatches, List.any_cons, ih]
    by_cases h : strContainsSub label a = true
    · rw [if_pos h, h, Bool.true_or]
    · rw [if_neg h, Bool.eq_false_iff.mpr h, Bool.false_or]

lemma labelMatches_iff (allowed : List String) (label : String) :
    EdgeLabelFilter.labelMatches allowed label = true ↔
      ∃ a ∈ allowed, a.toList <:+: label.toList := by
  rw [labelMatches_eq_any]
  simp [strContainsSub]

lemma propertiesContain_iff (S : List String) (ww : Bool) (t : Token) :
    t.propertiesContain S ww = true ↔ QualifiesSpec S ww t := by
  unfold Token.propertiesContain QualifiesSpec
  cases ww <;>
    simp [List.any_eq_true, strContainsSub, beq_iff_eq]

lemma mem_endpointTokens (edges : List Edge) (t : Token) :
    t ∈ endpointTokens edges ↔ ∃ e ∈ edges, t = e.From ∨ t = e.To := by
  induction edges with
  | nil => simp [endpointTokens]
  | cons e rest ih =>
    unfold endpointTokens at ih ⊢
    rw [List.foldr_cons, List.mem_cons, List.mem_cons, ih]
    constructor
    · rintro (rfl | rfl | ⟨e2, he2, h2⟩)
      · exact ⟨e, List.mem_cons_self e rest, Or.inl rfl⟩
      · exact ⟨e, List.mem_cons_self e rest, Or.inr rfl⟩
      · exact ⟨e2, List.mem_cons_of_mem e he2, h2⟩
    · rintro ⟨e2, he2, h2⟩
      rcases List.mem_cons.1 he2 with rfl | he3
      · rcases h2 with rfl | rfl
        · exact Or.inl rfl
        · exact Or.inr (Or.inl rfl)
      · exact Or.inr (Or.inr ⟨e2, he3, h2⟩)

/-! ### Claim theorems: C6, C7, C8, C10 -/

/-- Claim C6: with an empty allowed set, filterEdges is the identity on every
edge collection, for the label filter and for the property/path filter in
every mode. -/
theorem claim_C6_empty_allowed_identity (E : List Edge) :
    (∀ (up c ww : Bool), EdgeTokenFilter.filterEdges ⟨up, c, ww, []⟩ E = E) ∧
    EdgeLabelFilter.filterEdges ⟨[]⟩ E = E := by
  constructor
  · intro up c ww
    simp [EdgeTokenFilter.filterEdges]
  · simp [EdgeLabelFilter.filterEdges]

/-- Claim C7: with a non-empty allowed set, the label filter keeps exactly
the input edges whose label contains at least one allowed substring as a
contiguous, case-sensitive substring, in input order (the output is the
order-preserving filter of the input, in particular a sublist of it). -/
theorem claim_C7_label_filter_exact (S : List String) (E : List Edge)
    (hS : S ≠ []) :
    EdgeLabelFilter.filterEdges ⟨S⟩ E =
      E.filter (fun e => decide (∃ a ∈ S, a.toList <:+: e.label.toList)) ∧
    List.Sublist (EdgeLabelFilter.filterEdges ⟨S⟩ E) E := by
  have hcard : ¬ (S.length = 0) := by
    simpa [List.length_eq_zero] using hS
  have hmain :
      EdgeLabelFilter.filterEdges ⟨S⟩ E =
        E.filter (fun e => decide (∃ a ∈ S, a.toList <:+: e.label.toList)) := by
    unfold EdgeLabelFilter.filterEdges
    rw [if_neg hcard]
    rw [foldl_filter_aux
      (fun e => EdgeLabelFilter.labelMatches S e.label) E []]
    rw [List.nil_append]
    apply List.filter_congr
    intro e _
    rw [Bool.eq_iff_iff, labelMatches_iff, decide_eq_true_eq]
  exact ⟨hmain, hmain ▸ List.filter_sublist E⟩

/-- Witness for C7 at a concrete input: the allowed set containing "ub" keeps
the edge labelled "sub" and drops the edge labelled "lab1". -/
theorem claim_C7_label_filter_exact_witness :
    ["ub"] ≠ ([] : List String) ∧
    (EdgeLabelFilter.filterEdges ⟨["ub"]⟩ [edgeSub, edgeAB] =
      List.filter (fun e => decide (∃ a ∈ ["ub"],
        String.toList a <:+: e.label.toList)) [edgeSub, edgeAB] ∧
     List.Sublist (EdgeLabelFilter.filterEdges ⟨["ub"]⟩ [edgeSub, edgeAB])
       [edgeSub, edgeAB]) :=
  ⟨by decide, claim_C7_label_filter_exact ["ub"] [edgeSub, edgeAB] (by decide)⟩

/-- Claim C8: with a non-empty allowed set and usePath disabled, the property
filter keeps an edge iff some endpoint token qualifies, where a token
qualifies iff (wholeWords false) some property value contains some allowed
string, or (wholeWords true) some property value equals some allowed
string. -/
theorem claim_C8_property_filter_endpoints (S : List String) (ww c : Bool)
    (E : List Edge) (hS : S ≠ []) :
    ∀ e : Edge,
      e ∈ EdgeTokenFilter.filterEdges ⟨false, c, ww, S⟩ E ↔
        e ∈ E ∧ (QualifiesSpec S ww e.From ∨ QualifiesSpec S ww e.To) := by
  have hcard : ¬ (S.length = 0) := by
    simpa [List.length_eq_zero] using hS
  intro e
  unfold EdgeTokenFilter.filterEdges
  rw [if_neg hcard]
  simp only [Bool.false_eq_true, if_false]
  rw [foldl_filter_aux
    (fun e => e.From.propertiesContain S ww || e.To.propertiesContain S ww) E []]
  rw [List.nil_append, List.mem_filter]
  rw [Bool.or_eq_true, propertiesContain_iff, propertiesContain_iff]

/-- Witness for C8 at a concrete input: the edge A-B is kept because token
A's property value "a" contains the allowed string "a". -/
theorem claim_C8_property_filter_endpoints_witness :
    ["a"] ≠ ([] : List String) ∧
    (edgeAB ∈ EdgeTokenFilter.filterEdges ⟨false, false, false, ["a"]⟩ [edgeAB] ↔
      edgeAB ∈ [edgeAB] ∧
        (QualifiesSpec ["a"] false edgeAB.From ∨ QualifiesSpec ["a"] false edgeAB.To)) :=
  ⟨by decide,
    claim_C8_property_filter_endpoints ["a"] false false [edgeAB] (by decide) edgeAB⟩

/-- Claim C10: allows is exact membership in the allowed set for both
filters - true right after the corresponding add, false after a remove - and
in particular allows is false for the label "sub" when only its substring
"ub" was added, even though filterEdges keeps every edge labelled "sub". -/
theorem claim_C10_allows_exact_membership :
    (∀ (f : EdgeLabelFilter) (v : String), f.allows v = true ↔ v ∈ f.allowedLabels) ∧
    (∀ (f : EdgeTokenFilter) (v : String),
      f.allows v = true ↔ v ∈ f.allowedProperties) ∧
    (∀ (f : EdgeLabelFilter) (v : String), (f.addAllowedLabel v).allows v = true) ∧
    (∀ (f : EdgeTokenFilter) (v : String),
      (f.addAllowedProperty v).allows v = true) ∧
    EdgeLabelFilter.allows ⟨["ub"]⟩ ("sub") = false ∧
    EdgeLabelFilter.filterEdges ⟨["ub"]⟩ [edgeSub] = [edgeSub] := by
  refine ⟨?_, ?_, ?_, ?_, ?_, ?_⟩
  · intro f v
    simp [EdgeLabelFilter.allows]
  · intro f v
    simp [EdgeTokenFilter.allows]
  · intro f v
    simp [EdgeLabelFilter.allows, EdgeLabelFilter.addAllowedLabel, strSetAdd]
    by_cases h : v ∈ f.allowedLabels <;> simp [h]
  · intro f v
    simp [EdgeTokenFilter.allows, EdgeTokenFilter.addAllowedProperty, strSetAdd]
    by_cases h : v ∈ f.allowedProperties <;> simp [h]
  · decide
  · decide

/-! ### Helper lemmas: the Paths index and calculatePaths -/

/-- Every path stored in the index is a one-edge path (the invariant the
level-1 construction maintains; the composition step never runs). -/
def SingletonPaths (p : EdgeTokenFilter.Paths) : Prop :=
  ∀ a b q, q ∈ p.map a b → ∃ e, q = [e]

lemma singletonPaths_empty : SingletonPaths EdgeTokenFilter.Paths.empty := by
  intro a b q hq
  simp [EdgeTokenFilter.Paths.empty] at hq

lemma mem_dom_addPath (p : EdgeTokenFilter.Paths) (F T : Token) (path : List Edge)
    (a : Token) :
    a ∈ (p.addPath F T path).dom ↔ a ∈ p.dom ∨ a = F := by
  show a ∈ (if F ∈ p.dom then p.dom else p.dom ++ [F]) ↔ _
  by_cases h : F ∈ p.dom
  · rw [if_pos h]
    constructor
    · exact Or.inl
    · rintro (ha | rfl)
      · exact ha
      · exact h
  · rw [if_neg h, List.mem_append, List.mem_singleton]

lemma mem_tos_addPath (p : EdgeTokenFilter.Paths) (F T : Token) (path : List Edge)
    (a b : Token) :
    b ∈ (p.addPath F T path).tos a ↔ b ∈ p.tos a ∨ (a = F ∧ b = T) := by
  show b ∈ (if a = F then (if T ∈ p.tos F then p.tos F else p.tos F ++ [T])
      else p.tos a) ↔ _
  by_cases haF : a = F
  · subst haF
    rw [if_pos rfl]
    by_cases hT : T ∈ p.tos a
    · rw [if_pos hT]
      constructor
      · exact Or.inl
      · rintro (hb | ⟨-, rfl⟩)
        · exact hb
        · exact hT
    · rw [if_neg hT, List.mem_append, List.mem_singleton]
      tauto
  · rw [if_neg haF]
    simp [haF]

lemma mem_map_addPath (p : EdgeTokenFilter.Paths) (F T : Token) (e : Edge)
    (hsing : ∀ q' ∈ p.map F T, ∃ e', q' = [e']) (a b : Token) (q : List Edge) :
    q ∈ (p.addPath F T [e]).map a b ↔
      q ∈ p.map a b ∨ (a = F ∧ b = T ∧ q = [e]) := by
  show q ∈ (if a = F ∧ b = T then EdgeTokenFilter.pathSetAdd (p.map a b) [e]
      else p.map a b) ↔ _
  by_cases hab : a = F ∧ b = T
  · obtain ⟨rfl, rfl⟩ := hab
    rw [if_pos ⟨rfl, rfl⟩]
    unfold EdgeTokenFilter.pathSetAdd
    by_cases hany :
        (p.map a b).any (fun q' => decide (q'.toFinset = [e].toFinset)) = true
    · rw [if_pos hany]
      have he : [e] ∈ p.map a b := by
        rcases List.any_eq_true.1 hany with ⟨q', hq', hdec⟩
        rcases hsing q' hq' with ⟨e', rfl⟩
        have heq : ({e'} : Finset Edge) = {e} := by
          simpa using of_decide_eq_true hdec
        rw [Finset.singleton_inj] at heq
        rwa [heq] at hq'
      constructor
      · exact Or.inl
      · rintro (h | ⟨-, -, rfl⟩)
        · exact h
        · exact he
    · rw [if_neg hany, List.mem_append, List.mem_singleton]
      tauto
  · rw [if_neg hab]
    constructor
    · exact Or.inl
    · rintro (h | ⟨h1, h2, -⟩)
      · exact h
      · exact absurd ⟨h1, h2⟩ hab

lemma singletonPaths_addPath (p : EdgeTokenFilter.Paths) (F T : Token) (e : Edge)
    (hp : SingletonPaths p) : SingletonPaths (p.addPath F T [e]) := by
  intro a b q hq
  rw [mem_map_addPath p F T e (fun q' h => hp F T q' h)] at hq
  rcases hq with h | ⟨-, -, rfl⟩
  · exact hp a b q h
  · exact ⟨e, rfl⟩

/-! The level-1 fold. -/

lemma level1_go_singleton (es : List Edge) :
    ∀ (acc : EdgeTokenFilter.Paths), SingletonPaths acc →
      SingletonPaths (es.foldl
        (fun paths edge =>
          (paths.addPath edge.From edge.To [edge]).addPath edge.To edge.From [edge])
        acc) := by
  induction es with
  | nil => intro acc h; exact h
  | cons e rest ih =>
    intro acc h
    rw [List.foldl_cons]
    exact ih _ (singletonPaths_addPath _ _ _ _ (singletonPaths_addPath _ _ _ _ h))

lemma level1_go_dom (es : List Edge) :
    ∀ (acc : EdgeTokenFilter.Paths) (a : Token),
      a ∈ (es.foldl
        (fun paths edge =>
          (paths.addPath edge.From edge.To [edge]).addPath edge.To edge.From [edge])
        acc).dom ↔
      a ∈ acc.dom ∨ ∃ e ∈ es, a = e.From ∨ a = e.To := by
  induction es with
  | nil => intro acc a; simp
  | cons e rest ih =>
    intro acc a
    rw [List.foldl_cons, ih, mem_dom_addPath, mem_dom_addPath]
    simp only [List.mem_cons]
    constructor
    · rintro (((h | rfl) | rfl) | ⟨e2, h2, h3⟩)
      · exact Or.inl h
      · exact Or.inr ⟨e, Or.inl rfl, Or.inl rfl⟩
      · exact Or.inr ⟨e, Or.inl rfl, Or.inr rfl⟩
      · exact Or.inr ⟨e2, Or.inr h2, h3⟩
    · rintro (h | ⟨e2, (rfl | h2), h3⟩)
      · exact Or.inl (Or.inl (Or.inl h))
      · rcases h3 with rfl | rfl
        · exact Or.inl (Or.inl (Or.inr rfl))
        · exact Or.inl (Or.inr rfl)
      · exact Or.inr ⟨e2, h2, h3⟩

lemma level1_go_tos (es : List Edge) :
    ∀ (acc : EdgeTokenFilter.Paths) (a b : Token),
      b ∈ (es.foldl
        (fun paths edge =>
          (paths.addPath edge.From edge.To [edge]).addPath edge.To edge.From [edge])
        acc).tos a ↔
      b ∈ acc.tos a ∨
        ∃ e ∈ es, (a = e.From ∧ b = e.To) ∨ (a = e.To ∧ b = e.From) := by
  induction es with
  | nil => intro acc a b; simp
  | cons e rest ih =>
    intro acc a b
    rw [List.foldl_cons, ih, mem_tos_addPath, mem_tos_addPath]
    simp only [List.mem_cons]
    constructor
    · rintro (((h | h) | h) | ⟨e2, h2, h3⟩)
      · exact Or.inl h
      · exact Or.inr ⟨e, Or.inl rfl, Or.inl h⟩
      · exact Or.inr ⟨e, Or.inl rfl, Or.inr h⟩
      · exact Or.inr ⟨e2, Or.inr h2, h3⟩
    · rintro (h | ⟨e2, (rfl | h2), h3⟩)
      · exact Or.inl (Or.inl (Or.inl h))
      · rcases h3 with h3 | h3
        · exact Or.inl (Or.inl (Or.inr h3))
        · exact Or.inl (Or.inr h3)
      · exact Or.inr ⟨e2, h2, h3⟩

lemma level1_go_map (es : List Edge) :
    ∀ (acc : EdgeTokenFilter.Paths), SingletonPaths acc →
      ∀ (a b : Token) (q : List Edge),
      q ∈ (es.foldl
        (fun paths edge =>
          (paths.addPath edge.From edge.To [edge]).addPath edge.To edge.From [edge])
        acc).map a b ↔
      q ∈ acc.map a b ∨
        ∃ e ∈ es, q = [e] ∧ ((a = e.From ∧ b = e.To) ∨ (a = e.To ∧ b = e.From)) := by
  induction es with
  | nil => intro acc _ a b q; simp
  | cons e rest ih =>
    intro acc hacc a b q
    rw [List.foldl_cons,
      ih _ (singletonPaths_addPath _ _ _ _ (singletonPaths_addPath _ _ _ _ hacc)),
      mem_map_addPath _ _ _ _
        (fun q' h => singletonPaths_addPath _ _ _ _ hacc _ _ q' h),
      mem_map_addPath _ _ _ _ (fun q' h => hacc _ _ q' h)]
    simp only [List.mem_cons]
    constructor
    · rintro (((h | ⟨h1, h2, h3⟩) | ⟨h1, h2, h3⟩) | ⟨e2, h2, h3, h4⟩)
      · exact Or.inl h
      · exact Or.inr ⟨e, Or.inl rfl, h3, Or.inl ⟨h1, h2⟩⟩
      · exact Or.inr ⟨e, Or.inl rfl, h3, Or.inr ⟨h1, h2⟩⟩
      · exact Or.inr ⟨e2, Or.inr h2, h3, h4⟩
    · rintro (h | ⟨e2, (rfl | h2), h3, h4⟩)
      · exact Or.inl (Or.inl (Or.inl h))
      · rcases h4 with ⟨h5, h6⟩ | ⟨h5, h6⟩
        · exact Or.inl (Or.inl (Or.inr ⟨h5, h6, h3⟩))
        · exact Or.inl (Or.inr ⟨h5, h6, h3⟩)
      · exact Or.inr ⟨e2, h2, h3, h4⟩

lemma level1_singleton (es : List Edge) :
    SingletonPaths (EdgeTokenFilter.level1Paths es) :=
  level1_go_singleton es EdgeTokenFilter.Paths.empty singletonPaths_empty

lemma level1_dom (es : List Edge) (a : Token) :
    a ∈ (EdgeTokenFilter.level1Paths es).dom ↔
      ∃ e ∈ es, a = e.From ∨ a = e.To := by
  rw [EdgeTokenFilter.level1Paths, level1_go_dom]
  simp [EdgeTokenFilter.Paths.empty]

lemma level1_tos (es : List Edge) (a b : Token) :
    b ∈ (EdgeTokenFilter.level1Paths es).tos a ↔
      ∃ e ∈ es, (a = e.From ∧ b = e.To) ∨ (a = e.To ∧ b = e.From) := by
  rw [EdgeTokenFilter.level1Paths, level1_go_tos]
  simp [EdgeTokenFilter.Paths.empty]

lemma level1_map (es : List Edge) (a b : Token) (q : List Edge) :
    q ∈ (EdgeTokenFilter.level1Paths es).map a b ↔
      ∃ e ∈ es, q = [e] ∧ ((a = e.From ∧ b = e.To) ∨ (a = e.To ∧ b = e.From)) := by
  rw [EdgeTokenFilter.level1Paths, level1_go_map es _ singletonPaths_empty]
  simp [EdgeTokenFilter.Paths.empty]

/-! The while loop body is always empty, and calculatePaths reduces to
collecting the level-1 index. -/

lemma foldl_self {α β : Type} : ∀ (l : List β) (a : α),
    l.foldl (fun x _ => x) a = a := by
  intro l
  induction l with
  | nil => intro a; rfl
  | cons x t ih => intro a; rw [List.foldl_cons]; exact ih a

lemma whileBody_eq_empty (previous first : EdgeTokenFilter.Paths) :
    EdgeTokenFilter.whileBody previous first = EdgeTokenFilter.Paths.empty := by
  unfold EdgeTokenFilter.whileBody EdgeTokenFilter.Paths.getTosDefaultArg
  simp only [List.foldl_nil]
  exact foldl_self _ _

lemma collectOne_empty_left (acc : EdgeTokenFilter.Paths) :
    EdgeTokenFilter.collectOne EdgeTokenFilter.Paths.empty acc = acc := rfl

lemma paths_empty_size : EdgeTokenFilter.Paths.empty.size = 0 := rfl

lemma calculatePaths_eq_collect (es : List Edge) :
    EdgeTokenFilter.calculatePaths es =
      EdgeTokenFilter.collectOne (EdgeTokenFilter.level1Paths es)
        EdgeTokenFilter.Paths.empty := by
  simp only [EdgeTokenFilter.calculatePaths, whileBody_eq_empty, paths_empty_size,
    eq_self_iff_true, if_true, EdgeTokenFilter.collectResult, List.foldl_cons,
    List.foldl_nil]
  rw [collectOne_empty_left]

/-! Guarded accessors. -/

lemma getTos_of_mem_dom (p : EdgeTokenFilter.Paths) (a : Token) (h : a ∈ p.dom) :
    p.getTos a = p.tos a := by
  unfold EdgeTokenFilter.Paths.getTos
  exact if_pos h

lemma getPaths_getD_of_mem (p : EdgeTokenFilter.Paths) (a b : Token)
    (ha : a ∈ p.dom) (hb : b ∈ p.tos a) :
    (p.getPaths a b).getD [] = p.map a b := by
  unfold EdgeTokenFilter.Paths.getPaths
  rw [if_pos ha, if_pos hb]
  rfl

lemma getPaths_getD_sub (p : EdgeTokenFilter.Paths) (a b : Token) (q : List Edge)
    (h : q ∈ (p.getPaths a b).getD []) : q ∈ p.map a b := by
  unfold EdgeTokenFilter.Paths.getPaths at h
  by_cases ha : a ∈ p.dom
  · rw [if_pos ha] at h
    by_cases hb : b ∈ p.tos a
    · rwa [if_pos hb] at h
    · rw [if_neg hb] at h
      exact absurd h (by simp)
  · rw [if_neg ha] at h
    exact absurd h (by simp)

/-! The inner fold of the collection loop: all paths of one (From, toTok)
slot are added. -/

lemma innerFold_dom (F T : Token) :
    ∀ (plist : List (List Edge)) (acc : EdgeTokenFilter.Paths) (a : Token),
      a ∈ (plist.foldl (fun r path => r.addPath F T path) acc).dom ↔
        a ∈ acc.dom ∨ (plist ≠ [] ∧ a = F) := by
  intro plist
  induction plist with
  | nil => intro acc a; simp
  | cons path rest ih =>
    intro acc a
    rw [List.foldl_cons, ih, mem_dom_addPath]
    have hne : path :: rest ≠ [] := List.cons_ne_nil path rest
    tauto

lemma innerFold_tos (F T : Token) :
    ∀ (plist : List (List Edge)) (acc : EdgeTokenFilter.Paths) (a b : Token),
      b ∈ (plist.foldl (fun r path => r.addPath F T path) acc).tos a ↔
        b ∈ acc.tos a ∨ (plist ≠ [] ∧ a = F ∧ b = T) := by
  intro plist
  induction plist with
  | nil => intro acc a b; simp
  | cons path rest ih =>
    intro acc a b
    rw [List.foldl_cons, ih, mem_tos_addPath]
    have hne : path :: rest ≠ [] := List.cons_ne_nil path rest
    tauto

lemma innerFold_singleton (F T : Token) :
    ∀ (plist : List (List Edge)) (acc : EdgeTokenFilter.Paths),
      SingletonPaths acc → (∀ q' ∈ plist, ∃ e', q' = [e']) →
      SingletonPaths (plist.foldl (fun r path => r.addPath F T path) acc) := by
  intro plist
  induction plist with
  | nil => intro acc hacc _; exact hacc
  | cons path rest ih =>
    intro acc hacc hplist
    rcases hplist path (List.mem_cons_self path rest) with ⟨e', rfl⟩
    rw [List.foldl_cons]
    exact ih _ (singletonPaths_addPath _ _ _ _ hacc)
      (fun q' h => hplist q' (List.mem_cons_of_mem _ h))

lemma innerFold_map (F T : Token) :
    ∀ (plist : List (List Edge)) (acc : EdgeTokenFilter.Paths),
      SingletonPaths acc → (∀ q' ∈ plist, ∃ e', q' = [e']) →
      ∀ (a b : Token) (q : List Edge),
      q ∈ (plist.foldl (fun r path => r.addPath F T path) acc).map a b ↔
        q ∈ acc.map a b ∨ (a = F ∧ b = T ∧ q ∈ plist) := by
  intro plist
  induction plist with
  | nil => intro acc _ _ a b q; simp
  | cons path rest ih =>
    intro acc hacc hplist a b q
    rcases hplist path (List.mem_cons_self path rest) with ⟨e', rfl⟩
    rw [List.foldl_cons,
      ih _ (singletonPaths_addPath _ _ _ _ hacc)
        (fun q' h => hplist q' (List.mem_cons_of_mem _ h)),
      mem_map_addPath _ _ _ _ (fun q' h => hacc _ _ q' h)]
    simp only [List.mem_cons]
    tauto

/-! The middle fold of the collection loop, over the end tokens of one start
token. -/

lemma midFold_dom (p : EdgeTokenFilter.Paths) (F : Token) :
    ∀ (tlist : List Token) (acc : EdgeTokenFilter.Paths) (a : Token),
      a ∈ (tlist.foldl
        (fun result toTok =>
          ((p.getPaths F toTok).getD []).foldl
            (fun result path => result.addPath F toTok path) result)
        acc).dom ↔
      a ∈ acc.dom ∨ (a = F ∧ ∃ t ∈ tlist, (p.getPaths F t).getD [] ≠ []) := by
  intro tlist
  induction tlist with
  | nil => intro acc a; simp
  | cons t rest ih =>
    intro acc a
    rw [List.foldl_cons, ih, innerFold_dom]
    simp only [List.mem_cons, exists_eq_or_imp]
    tauto

lemma midFold_tos (p : EdgeTokenFilter.Paths) (F : Token) :
    ∀ (tlist : List Token) (acc : EdgeTokenFilter.Paths) (a b : Token),
      b ∈ (tlist.foldl
        (fun result toTok =>
          ((p.getPaths F toTok).getD []).foldl
            (fun result path => result.addPath F toTok path) result)
        acc).tos a ↔
      b ∈ acc.tos a ∨ (a = F ∧ b ∈ tlist ∧ (p.getPaths F b).getD [] ≠ []) := by
  intro tlist
  induction tlist with
  | nil => intro acc a b; simp
  | cons t rest ih =>
    intro acc a b
    rw [List.foldl_cons, ih, innerFold_tos]
    simp only [List.mem_cons]
    constructor
    · rintro ((h | ⟨h1, rfl, rfl⟩) | ⟨rfl, h2, h3⟩)
      · exact Or.inl h
      · exact Or.inr ⟨rfl, Or.inl rfl, h1⟩
      · exact Or.inr ⟨rfl, Or.inr h2, h3⟩
    · rintro (h | ⟨rfl, (rfl | h2), h3⟩)
      · exact Or.inl (Or.inl h)
      · exact Or.inl (Or.inr ⟨h3, rfl, rfl⟩)
      · exact Or.inr ⟨rfl, h2, h3⟩

lemma midFold_singleton (p : EdgeTokenFilter.Paths) (F : Token)
    (hp : SingletonPaths p) :
    ∀ (tlist : List Token) (acc : EdgeTokenFilter.Paths), SingletonPaths acc →
      SingletonPaths (tlist.foldl
        (fun result toTok =>
          ((p.getPaths F toTok).getD []).foldl
            (fun result path => result.addPath F toTok path) result)
        acc) := by
  intro tlist
  induction tlist with
  | nil => intro acc hacc; exact hacc
  | cons t rest ih =>
    intro acc hacc
    rw [List.foldl_cons]
    exact ih _ (innerFold_singleton F t _ acc hacc
      (fun q' h => hp F t q' (getPaths_getD_sub p F t q' h)))

lemma midFold_map (p : EdgeTokenFilter.Paths) (F : Token)
    (hp : SingletonPaths p) :
    ∀ (tlist : List Token) (acc : EdgeTokenFilter.Paths), SingletonPaths acc →
      ∀ (a b : Token) (q : List Edge),
      q ∈ (tlist.foldl
        (fun result toTok =>
          ((p.getPaths F toTok).getD []).foldl
            (fun result path => result.addPath F toTok path) result)
        acc).map a b ↔
      q ∈ acc.map a b ∨ (a = F ∧ b ∈ tlist ∧ q ∈ (p.getPaths F b).getD []) := by
  intro tlist
  induction tlist with
  | nil => intro acc _ a b q; simp
  | cons t rest ih =>
    intro acc hacc a b q
    rw [List.foldl_cons,
      ih _ (innerFold_singleton F t _ acc hacc
        (fun q' h => hp F t q' (getPaths_getD_sub p F t q' h))),
      innerFold_map F t _ acc hacc
        (fun q' h => hp F t q' (getPaths_getD_sub p F t q' h))]
    simp only [List.mem_cons]
    constructor
    · rintro ((h | ⟨rfl, rfl, h3⟩) | ⟨rfl, h2, h3⟩)
      · exact Or.inl h
      · exact Or.inr ⟨rfl, Or.inl rfl, h3⟩
      · exact Or.inr ⟨rfl, Or.inr h2, h3⟩
    · rintro (h | ⟨rfl, (rfl | h2), h3⟩)
      · exact Or.inl (Or.inl h)
      · exact Or.inl (Or.inr ⟨rfl, rfl, h3⟩)
      · exact Or.inr ⟨rfl, h2, h3⟩

/-! The outer fold of the collection loop, over the start tokens. -/

lemma outFold_dom (p : EdgeTokenFilter.Paths) :
    ∀ (dlist : List Token) (acc : EdgeTokenFilter.Paths) (a : Token),
      a ∈ (dlist.foldl
        (fun result F =>
          (p.getTos F).foldl
            (fun result toTok =>
              ((p.getPaths F toTok).getD []).foldl
                (fun result path => result.addPath F toTok path) result)
            result)
        acc).dom ↔
      a ∈ acc.dom ∨
        (a ∈ dlist ∧ ∃ t ∈ p.getTos a, (p.getPaths a t).getD [] ≠ []) := by
  intro dlist
  induction dlist with
  | nil => intro acc a; simp
  | cons F rest ih =>
    intro acc a
    rw [List.foldl_cons, ih, midFold_dom]
    simp only [List.mem_cons]
    constructor
    · rintro ((h | ⟨rfl, h2⟩) | ⟨h1, h2⟩)
      · exact Or.inl h
      · exact Or.inr ⟨Or.inl rfl, h2⟩
      · exact Or.inr ⟨Or.inr h1, h2⟩
    · rintro (h | ⟨rfl | h1, h2⟩)
      · exact Or.inl (Or.inl h)
      · exact Or.inl (Or.inr ⟨rfl, h2⟩)
      · exact Or.inr ⟨h1, h2⟩

lemma outFold_tos (p : EdgeTokenFilter.Paths) :
    ∀ (dlist : List Token) (acc : EdgeTokenFilter.Paths) (a b : Token),
      b ∈ (dlist.foldl
        (fun result F =>
          (p.getTos F).foldl
            (fun result toTok =>
              ((p.getPaths F toTok).getD []).foldl
                (fun result path => result.addPath F toTok path) result)
            result)
        acc).tos a ↔
      b ∈ acc.tos a ∨
        (a ∈ dlist ∧ b ∈ p.getTos a ∧ (p.getPaths a b).getD [] ≠ []) := by
  intro dlist
  induction dlist with
  | nil => intro acc a b; simp
  | cons F rest ih =>
    intro acc a b
    rw [List.foldl_cons, ih, midFold_tos]
    simp only [List.mem_cons]
    constructor
    · rintro ((h | ⟨rfl, h2⟩) | ⟨h1, h2⟩)
      · exact Or.inl h
      · exact Or.inr ⟨Or.inl rfl, h2⟩
      · exact Or.inr ⟨Or.inr h1, h2⟩
    · rintro (h | ⟨rfl | h1, h2⟩)
      · exact Or.inl (Or.inl h)
      · exact Or.inl (Or.inr ⟨rfl, h2⟩)
      · exact Or.inr ⟨h1, h2⟩

lemma outFold_map (p : EdgeTokenFilter.Paths) (hp : SingletonPaths p) :
    ∀ (dlist : List Token) (acc : EdgeTokenFilter.Paths), SingletonPaths acc →
      ∀ (a b : Token) (q : List Edge),
      q ∈ (dlist.foldl
        (fun result F =>
          (p.getTos F).foldl
            (fun result toTok =>
              ((p.getPaths F toTok).getD []).foldl
                (fun result path => result.addPath F toTok path) result)
            result)
        acc).map a b ↔
      q ∈ acc.map a b ∨
        (a ∈ dlist ∧ b ∈ p.getTos a ∧ q ∈ (p.getPaths a b).getD []) := by
  intro dlist
  induction dlist with
  | nil => intro acc _ a b q; simp
  | cons F rest ih =>
    intro acc hacc a b q
    rw [List.foldl_cons, ih _ (midFold_singleton p F hp _ acc hacc),
      midFold_map p F hp _ acc hacc]
    simp only [List.mem_cons]
    constructor
    · rintro ((h | ⟨rfl, h2⟩) | ⟨h1, h2⟩)
      · exact Or.inl h
      · exact Or.inr ⟨Or.inl rfl, h2⟩
      · exact Or.inr ⟨Or.inr h1, h2⟩
    · rintro (h | ⟨rfl | h1, h2⟩)
      · exact Or.inl (Or.inl h)
      · exact Or.inl (Or.inr ⟨rfl, h2⟩)
      · exact Or.inr ⟨h1, h2⟩

/-! Characterization of the calculatePaths result: only the level-1 entries,
in both directions.  This is the observable consequence of the defaulted
getTos() calls in the source's while loop: no composed (length two or more)
path is ever produced. -/

lemma calc_dom_iff (es : List Edge) (a : Token) :
    a ∈ (EdgeTokenFilter.calculatePaths es).dom ↔
      ∃ e ∈ es, a = e.From ∨ a = e.To := by
  rw [calculatePaths_eq_collect]
  unfold EdgeTokenFilter.collectOne
  rw [outFold_dom]
  simp only [EdgeTokenFilter.Paths.empty, List.not_mem_nil, false_or]
  constructor
  · rintro ⟨hdom, -⟩
    exact (level1_dom es a).1 hdom
  · intro he
    have hdom : a ∈ (EdgeTokenFilter.level1Paths es).dom := (level1_dom es a).2 he
    rcases he with ⟨e, he, hfrom | hto⟩
    · refine ⟨hdom, e.To, ?_, ?_⟩
      · rw [getTos_of_mem_dom _ _ hdom]
        exact (level1_tos es a e.To).2 ⟨e, he, Or.inl ⟨hfrom, rfl⟩⟩
      · rw [getPaths_getD_of_mem _ _ _ hdom
          ((level1_tos es a e.To).2 ⟨e, he, Or.inl ⟨hfrom, rfl⟩⟩)]
        exact List.ne_nil_of_mem
          ((level1_map es a e.To [e]).2 ⟨e, he, rfl, Or.inl ⟨hfrom, rfl⟩⟩)
    · refine ⟨hdom, e.From, ?_, ?_⟩
      · rw [getTos_of_mem_dom _ _ hdom]
        exact (level1_tos es a e.From).2 ⟨e, he, Or.inr ⟨hto, rfl⟩⟩
      · rw [getPaths_getD_of_mem _ _ _ hdom
          ((level1_tos es a e.From).2 ⟨e, he, Or.inr ⟨hto, rfl⟩⟩)]
        exact List.ne_nil_of_mem
          ((level1_map es a e.From [e]).2 ⟨e, he, rfl, Or.inr ⟨hto, rfl⟩⟩)

lemma calc_tos_iff (es : List Edge) (a b : Token) :
    b ∈ (EdgeTokenFilter.calculatePaths es).tos a ↔
      ∃ e ∈ es, (a = e.From ∧ b = e.To) ∨ (a = e.To ∧ b = e.From) := by
  rw [calculatePaths_eq_collect]
  unfold EdgeTokenFilter.collectOne
  rw [outFold_tos]
  simp only [EdgeTokenFilter.Paths.empty, List.not_mem_nil, false_or]
  constructor
  · rintro ⟨hdom, htos, -⟩
    rw [getTos_of_mem_dom _ _ hdom] at htos
    exact (level1_tos es a b).1 htos
  · intro he
    have hdom : a ∈ (EdgeTokenFilter.level1Paths es).dom := by
      refine (level1_dom es a).2 ?_
      rcases he with ⟨e, hee, ⟨h1, -⟩ | ⟨h1, -⟩⟩
      · exact ⟨e, hee, Or.inl h1⟩
      · exact ⟨e, hee, Or.inr h1⟩
    have htos : b ∈ (EdgeTokenFilter.level1Paths es).tos a := (level1_tos es a b).2 he
    refine ⟨hdom, ?_, ?_⟩
    · rw [getTos_of_mem_dom _ _ hdom]
      exact htos
    · rw [getPaths_getD_of_mem _ _ _ hdom htos]
      rcases he with ⟨e, hee, ⟨h1, h2⟩ | ⟨h1, h2⟩⟩
      · exact List.ne_nil_of_mem
          ((level1_map es a b [e]).2 ⟨e, hee, rfl, Or.inl ⟨h1, h2⟩⟩)
      · exact List.ne_nil_of_mem
          ((level1_map es a b [e]).2 ⟨e, hee, rfl, Or.inr ⟨h1, h2⟩⟩)

lemma calc_map_iff (es : List Edge) (a b : Token) (q : List Edge) :
    q ∈ (EdgeTokenFilter.calculatePaths es).map a b ↔
      ∃ e ∈ es, q = [e] ∧ ((a = e.From ∧ b = e.To) ∨ (a = e.To ∧ b = e.From)) := by
  rw [calculatePaths_eq_collect]
  unfold EdgeTokenFilter.collectOne
  rw [outFold_map _ (level1_singleton es) _ _ singletonPaths_empty]
  simp only [EdgeTokenFilter.Paths.empty, List.not_mem_nil, false_or]
  constructor
  · rintro ⟨-, -, hq⟩
    exact (level1_map es a b q).1 (getPaths_getD_sub _ _ _ _ hq)
  · intro he
    have hdom : a ∈ (EdgeTokenFilter.level1Paths es).dom := by
      refine (level1_dom es a).2 ?_
      rcases he with ⟨e, hee, -, ⟨h1, -⟩ | ⟨h1, -⟩⟩
      · exact ⟨e, hee, Or.inl h1⟩
      · exact ⟨e, hee, Or.inr h1⟩
    have htos : b ∈ (EdgeTokenFilter.level1Paths es).tos a := by
      refine (level1_tos es a b).2 ?_
      rcases he with ⟨e, hee, -, hp⟩
      exact ⟨e, hee, hp⟩
    refine ⟨hdom, ?_, ?_⟩
    · rw [getTos_of_mem_dom _ _ hdom]
      exact htos
    · rw [getPaths_getD_of_mem _ _ _ hdom htos]
      exact (level1_map es a b q).2 he

lemma calc_pathsBetween_iff (es : List Edge) (a b : Token) (q : List Edge) :
    q ∈ (EdgeTokenFilter.calculatePaths es).pathsBetween a b ↔
      ∃ e ∈ es, q = [e] ∧ ((a = e.From ∧ b = e.To) ∨ (a = e.To ∧ b = e.From)) := by
  unfold EdgeTokenFilter.Paths.pathsBetween
  constructor
  · intro h
    exact (calc_map_iff es a b q).1 (getPaths_getD_sub _ _ _ _ h)
  · intro he
    have hdom : a ∈ (EdgeTokenFilter.calculatePaths es).dom := by
      refine (calc_dom_iff es a).2 ?_
      rcases he with ⟨e, hee, -, ⟨h1, -⟩ | ⟨h1, -⟩⟩
      · exact ⟨e, hee, Or.inl h1⟩
      · exact ⟨e, hee, Or.inr h1⟩
    have htos : b ∈ (EdgeTokenFilter.calculatePaths es).tos a := by
      refine (calc_tos_iff es a b).2 ?_
      rcases he with ⟨e, hee, -, hp⟩
      exact ⟨e, hee, hp⟩
    rw [getPaths_getD_of_mem _ _ _ hdom htos]
    exact (calc_map_iff es a b q).2 he

/-! Path-mode emptiness helpers. -/

lemma pathModeInner_id (paths : EdgeTokenFilter.Paths) (S : List String)
    (ww : Bool) (F : Token) :
    ∀ (tlist : List Token) (acc : List Edge),
      (∀ T ∈ tlist, T.propertiesContain S ww = false) →
      tlist.foldl
        (fun result toTok =>
          if toTok.propertiesContain S ww then
            ((paths.getPaths F toTok).getD []).foldl
              (fun result path => EdgeTokenFilter.edgeSetUpdate result path)
              result
          else result)
        acc = acc := by
  intro tlist
  induction tlist with
  | nil => intro acc _; rfl
  | cons T rest ih =>
    intro acc h
    rw [List.foldl_cons, if_neg (by simp [h T (List.mem_cons_self T rest)])]
    exact ih acc (fun T' hT' => h T' (List.mem_cons_of_mem T hT'))

lemma pathModeFold_id (paths : EdgeTokenFilter.Paths) (S : List String)
    (ww : Bool) :
    ∀ (dlist : List Token) (acc : List Edge),
      (∀ F ∈ dlist, F.propertiesContain S ww = true →
        ∀ T ∈ paths.getTos F, T.propertiesContain S ww = false) →
      dlist.foldl
        (fun result From =>
          if From.propertiesContain S ww then
            (paths.getTos From).foldl
              (fun result toTok =>
                if toTok.propertiesContain S ww then
                  ((paths.getPaths From toTok).getD []).foldl
                    (fun result path => EdgeTokenFilter.edgeSetUpdate result path)
                    result
                else result)
              result
          else result)
        acc = acc := by
  intro dlist
  induction dlist with
  | nil => intro acc _; rfl
  | cons F rest ih =>
    intro acc h
    rw [List.foldl_cons]
    by_cases hF : F.propertiesContain S ww = true
    · rw [if_pos hF,
        pathModeInner_id paths S ww F _ acc (h F (List.mem_cons_self F rest) hF)]
      exact ih acc (fun F' hF' => h F' (List.mem_cons_of_mem F hF'))
    · rw [if_neg hF]
      exact ih acc (fun F' hF' => h F' (List.mem_cons_of_mem F hF'))

/-! ### Claim theorems: C9, C1, C5 -/

/-- Claim C9: the Paths index returned by calculatePaths is symmetric - a
path is recorded between (a, b) iff the same path is recorded between
(b, a). -/
theorem claim_C9_paths_index_symmetric (es : List Edge) (a b : Token)
    (q : List Edge) :
    q ∈ (EdgeTokenFilter.calculatePaths es).pathsBetween a b ↔
      q ∈ (EdgeTokenFilter.calculatePaths es).pathsBetween b a := by
  rw [calc_pathsBetween_iff, calc_pathsBetween_iff]
  constructor
  · rintro ⟨e, he, hq, hp⟩
    exact ⟨e, he, hq, by tauto⟩
  · rintro ⟨e, he, hq, hp⟩
    exact ⟨e, he, hq, by tauto⟩

/-- Claim C1, evaluated on the failing input: for the graph with edges A-B
and B-C of the same type (hence the same type prefix), the source's
calculatePaths records the two one-edge paths but no path at all between A
and C - the claimed composed path {A-B, B-C} is never produced, because the
while loop's getTos() calls use the defaulted Token-class key (and its
non-empty levels would not be collected anyway). -/
theorem claim_C1_no_composed_path_in_code :
    [edgeAB] ∈ (EdgeTokenFilter.calculatePaths [edgeAB, edgeBC]).pathsBetween
      tokA tokB ∧
    [edgeBC] ∈ (EdgeTokenFilter.calculatePaths [edgeAB, edgeBC]).pathsBetween
      tokB tokC ∧
    (EdgeTokenFilter.calculatePaths [edgeAB, edgeBC]).pathsBetween tokA tokC = [] ∧
    edgeAB.type = edgeBC.type := by decide

/-- Claim C5: in path mode with a non-empty allowed set, if fewer than two
distinct (endpoint) tokens satisfy the qualification predicate, filterEdges
returns the empty edge collection, also when individual edges have a
qualifying endpoint. -/
theorem claim_C5_path_mode_needs_two_anchors (S : List String) (ww c : Bool)
    (E : List Edge) (hS : S ≠ [])
    (hloop : ∀ e ∈ E, e.From ≠ e.To)
    (hq : ∀ t1 ∈ endpointTokens E, ∀ t2 ∈ endpointTokens E,
      t1.propertiesContain S ww = true → t2.propertiesContain S ww = true →
      t1 = t2) :
    EdgeTokenFilter.filterEdges ⟨true, c, ww, S⟩ E = [] := by
  have hcard : ¬ (S.length = 0) := by simpa [List.length_eq_zero] using hS
  unfold EdgeTokenFilter.filterEdges
  rw [if_neg hcard, if_pos rfl]
  refine pathModeFold_id (EdgeTokenFilter.calculatePaths E) S ww _ [] ?_
  intro F hF hqF T hT
  cases hTb : T.propertiesContain S ww with
  | false => rfl
  | true =>
    exfalso
    have hFe : F ∈ endpointTokens E := by
      rcases (calc_dom_iff E F).1 hF with ⟨e, he, h⟩
      exact (mem_endpointTokens E F).2 ⟨e, he, h⟩
    have hTt : T ∈ (EdgeTokenFilter.calculatePaths E).tos F := by
      rwa [getTos_of_mem_dom _ _ hF] at hT
    rcases (calc_tos_iff E F T).1 hTt with ⟨e, he, ⟨h1, h2⟩ | ⟨h1, h2⟩⟩
    · have hne : F ≠ T := by
        rw [h1, h2]
        exact hloop e he
      have hTe : T ∈ endpointTokens E := (mem_endpointTokens E T).2 ⟨e, he, Or.inr h2⟩
      exact hne (hq F hFe T hTe hqF hTb)
    · have hne : F ≠ T := by
        rw [h1, h2]
        exact (hloop e he).symm
      have hTe : T ∈ endpointTokens E := (mem_endpointTokens E T).2 ⟨e, he, Or.inl h2⟩
      exact hne (hq F hFe T hTe hqF hTb)

/-- Witness for C5 at a concrete input: one edge from X to B where only X
qualifies; the path-mode result is empty although the edge has a qualifying
endpoint. -/
theorem claim_C5_path_mode_needs_two_anchors_witness :
    (["x"] ≠ ([] : List String) ∧
      (∀ e ∈ [edgeXB], e.From ≠ e.To) ∧
      (∀ t1 ∈ endpointTokens [edgeXB], ∀ t2 ∈ endpointTokens [edgeXB],
        Token.propertiesContain t1 ["x"] false = true →
        Token.propertiesContain t2 ["x"] false = true → t1 = t2)) ∧
    EdgeTokenFilter.filterEdges ⟨true, false, false, ["x"]⟩ [edgeXB] = [] :=
  ⟨⟨by decide, by decide, by decide⟩,
    claim_C5_path_mode_needs_two_anchors ["x"] false false [edgeXB] (by decide)
      (by decide) (by decide)⟩

/-! ### Helper lemmas: collapse, token collection -/

lemma mem_tokenSetAdd (s : List Token) (t x : Token) :
    x ∈ EdgeTokenFilter.tokenSetAdd s t ↔ x ∈ s ∨ x = t := by
  unfold EdgeTokenFilter.tokenSetAdd
  by_cases h : t ∈ s
  · rw [if_pos h]
    constructor
    · exact Or.inl
    · rintro (hx | rfl)
      · exact hx
      · exact h
  · rw [if_neg h, List.mem_append, List.mem_singleton]

lemma nodup_tokenSetAdd (s : List Token) (t : Token) (h : s.Nodup) :
    (EdgeTokenFilter.tokenSetAdd s t).Nodup := by
  unfold EdgeTokenFilter.tokenSetAdd
  by_cases ht : t ∈ s
  · rwa [if_pos ht]
  · rw [if_neg ht, List.nodup_append]
    refine ⟨h, List.nodup_singleton t, ?_⟩
    intro x hx hx1
    rw [List.mem_singleton] at hx1
    subst hx1
    exact ht hx

lemma mem_fold_tokenSetAdd (orig : NLPInstance) :
    ∀ (il : List Nat) (acc : List Token) (x : Token),
      x ∈ il.foldl (fun tokens i => EdgeTokenFilter.tokenSetAdd tokens
        (orig.getToken i)) acc ↔
      x ∈ acc ∨ ∃ i ∈ il, x = orig.getToken i := by
  intro il
  induction il with
  | nil => intro acc x; simp
  | cons i rest ih =>
    intro acc x
    rw [List.foldl_cons, ih, mem_tokenSetAdd]
    simp only [List.mem_cons, exists_eq_or_imp]
    tauto

lemma nodup_fold_tokenSetAdd (orig : NLPInstance) :
    ∀ (il : List Nat) (acc : List Token), acc.Nodup →
      (il.foldl (fun tokens i => EdgeTokenFilter.tokenSetAdd tokens
        (orig.getToken i)) acc).Nodup := by
  intro il
  induction il with
  | nil => intro acc h; exact h
  | cons i rest ih =>
    intro acc h
    rw [List.foldl_cons]
    exact ih _ (nodup_tokenSetAdd _ _ h)

lemma survivesSpec_cons (e : Edge) (es : List Edge) (i : Nat) :
    survivesSpec (e :: es) i ↔
      ((e.renderType = Edge.RenderType.dependency ∧
          (i = e.From.index ∨ i = e.To.index)) ∨
        (e.renderType = Edge.RenderType.span ∧
          e.From.index ≤ i ∧ i ≤ e.To.index)) ∨
      survivesSpec es i := by
  unfold survivesSpec
  simp only [List.mem_cons, exists_eq_or_imp]

lemma mem_span_range (e : Edge) (i : Nat) (hle : e.From.index ≤ e.To.index) :
    i ∈ List.range' e.From.index (e.To.index + 1 - e.From.index) ↔
      e.From.index ≤ i ∧ i ≤ e.To.index := by
  rw [List.mem_range'_1]
  omega

lemma mem_collapseTokens_go (orig : NLPInstance) :
    ∀ (es : List Edge) (acc : List Token) (x : Token),
      orig.edgesWF es →
      (x ∈ es.foldl
        (fun tokens e =>
          match e.renderType with
          | Edge.RenderType.dependency =>
            EdgeTokenFilter.tokenSetAdd (EdgeTokenFilter.tokenSetAdd tokens e.From)
              e.To
          | Edge.RenderType.span =>
            (List.range' e.From.index (e.To.index + 1 - e.From.index)).foldl
              (fun tokens i => EdgeTokenFilter.tokenSetAdd tokens
                (orig.getToken i))
              tokens)
        acc ↔
      x ∈ acc ∨ ∃ i, survivesSpec es i ∧ x = orig.getToken i) := by
  intro es
  induction es with
  | nil =>
    intro acc x _
    simp [survivesSpec]
  | cons e rest ih =>
    intro acc x hwf
    have hwfe := hwf e (List.mem_cons_self e rest)
    have hwfr : orig.edgesWF rest := fun e' he' => hwf e' (List.mem_cons_of_mem e he')
    rw [List.foldl_cons]
    cases hrt : e.renderType with
    | dependency =>
      rw [ih _ x hwfr, mem_tokenSetAdd, mem_tokenSetAdd]
      constructor
      · rintro (((hx | rfl) | rfl) | ⟨i, hi, rfl⟩)
        · exact Or.inl hx
        · exact Or.inr ⟨e.From.index, (survivesSpec_cons e rest _).2
            (Or.inl (Or.inl ⟨hrt, Or.inl rfl⟩)), hwfe.2.2.1⟩
        · exact Or.inr ⟨e.To.index, (survivesSpec_cons e rest _).2
            (Or.inl (Or.inl ⟨hrt, Or.inr rfl⟩)), hwfe.2.2.2.1⟩
        · exact Or.inr ⟨i, (survivesSpec_cons e rest _).2 (Or.inr hi), rfl⟩
      · rintro (hx | ⟨i, hi, rfl⟩)
        · exact Or.inl (Or.inl (Or.inl hx))
        · rcases (survivesSpec_cons e rest _).1 hi with
            (⟨-, rfl | rfl⟩ | ⟨hsp, -⟩) | hrest
          · exact Or.inl (Or.inl (Or.inr hwfe.2.2.1.symm))
          · exact Or.inl (Or.inr hwfe.2.2.2.1.symm)
          · rw [hrt] at hsp
            exact absurd hsp (by simp)
          · exact Or.inr ⟨i, hrest, rfl⟩
    | span =>
      have hle : e.From.index ≤ e.To.index := hwfe.2.2.2.2 hrt
      rw [ih _ x hwfr, mem_fold_tokenSetAdd]
      constructor
      · rintro ((hx | ⟨i, hi, rfl⟩) | ⟨i, hi, rfl⟩)
        · exact Or.inl hx
        · exact Or.inr ⟨i, (survivesSpec_cons e rest _).2
            (Or.inl (Or.inr ⟨hrt, (mem_span_range e i hle).1 hi⟩)), rfl⟩
        · exact Or.inr ⟨i, (survivesSpec_cons e rest _).2 (Or.inr hi), rfl⟩
      · rintro (hx | ⟨i, hi, rfl⟩)
        · exact Or.inl (Or.inl hx)
        · rcases (survivesSpec_cons e rest _).1 hi with
            (⟨hdep, -⟩ | ⟨-, hrange⟩) | hrest
          · rw [hrt] at hdep
            exact absurd hdep (by simp)
          · exact Or.inl (Or.inr ⟨i, (mem_span_range e i hle).2 hrange, rfl⟩)
          · exact Or.inr ⟨i, hrest, rfl⟩

lemma mem_collapseTokens (orig : NLPInstance) (es : List Edge) (x : Token)
    (hwf : orig.edgesWF es) :
    x ∈ EdgeTokenFilter.collapseTokens orig es ↔
      ∃ i, survivesSpec es i ∧ x = orig.getToken i := by
  unfold EdgeTokenFilter.collapseTokens
  rw [mem_collapseTokens_go orig es [] x hwf]
  simp

lemma nodup_collapseTokens (orig : NLPInstance) (es : List Edge) :
    (EdgeTokenFilter.collapseTokens orig es).Nodup := by
  unfold EdgeTokenFilter.collapseTokens
  generalize hacc : ([] : List Token) = acc
  have hnd : acc.Nodup := by rw [← hacc]; exact List.nodup_nil
  clear hacc
  induction es generalizing acc with
  | nil => exact hnd
  | cons e rest ih =>
    rw [List.foldl_cons]
    cases e.renderType with
    | dependency =>
      exact ih _ (nodup_tokenSetAdd _ _ (nodup_tokenSetAdd _ _ hnd))
    | span =>
      exact ih _ (nodup_fold_tokenSetAdd orig _ _ hnd)

/-! ### Helper lemmas: sorting the surviving tokens -/

lemma sortedLt_ext :
    ∀ {l1 l2 : List Nat}, l1.Pairwise (· < ·) → l2.Pairwise (· < ·) →
      (∀ x, x ∈ l1 ↔ x ∈ l2) → l1 = l2 := by
  intro l1
  induction l1 with
  | nil =>
    intro l2 _ _ hmem
    cases l2 with
    | nil => rfl
    | cons b t2 => exact absurd ((hmem b).2 (List.mem_cons_self b t2)) (by simp)
  | cons a t1 ih =>
    intro l2 h1 h2 hmem
    cases l2 with
    | nil => exact absurd ((hmem a).1 (List.mem_cons_self a t1)) (by simp)
    | cons b t2 =>
      rw [List.pairwise_cons] at h1 h2
      have hab : a = b := by
        rcases List.mem_cons.1 ((hmem a).1 (List.mem_cons_self a t1)) with rfl | ha2
        · rfl
        · rcases List.mem_cons.1 ((hmem b).2 (List.mem_cons_self b t2)) with rfl | hb1
          · rfl
          · exact absurd (Nat.lt_trans (h1.1 b hb1) (h2.1 a ha2)) (Nat.lt_irrefl a)
      subst hab
      have htl : ∀ x, x ∈ t1 ↔ x ∈ t2 := by
        intro x
        constructor
        · intro hx
          rcases List.mem_cons.1 ((hmem x).1 (List.mem_cons_of_mem a hx)) with rfl | h
          · exact absurd (h1.1 x hx) (Nat.lt_irrefl x)
          · exact h
        · intro hx
          rcases List.mem_cons.1 ((hmem x).2 (List.mem_cons_of_mem a hx)) with rfl | h
          · exact absurd (h2.1 x hx) (Nat.lt_irrefl x)
          · exact h
      rw [ih h1.2 h2.2 htl]

lemma survIdx_sorted (es : List Edge) (n : Nat) :
    (survIdxList es n).Pairwise (· < ·) :=
  List.Pairwise.filter _ (List.pairwise_lt_range n)

lemma mem_survIdxList (es : List Edge) (n i : Nat) :
    i ∈ survIdxList es n ↔ i < n ∧ survivesSpec es i := by
  unfold survIdxList
  rw [List.mem_filter, List.mem_range, decide_eq_true_eq]

lemma survivesSpec_lt (orig : NLPInstance) (es : List Edge)
    (hwf : orig.edgesWF es) (i : Nat) (h : survivesSpec es i) :
    i < orig.tokens.length := by
  rcases h with ⟨e, he, ⟨-, rfl | rfl⟩ | ⟨-, -, hle⟩⟩
  · exact (hwf e he).1
  · exact (hwf e he).2.1
  · exact Nat.lt_of_le_of_lt hle (hwf e he).2.1

lemma getToken_index (orig : NLPInstance) (hdense : orig.denseTokens) (i : Nat)
    (hi : i < orig.tokens.length) : (orig.getToken i).index = i := by
  unfold NLPInstance.getToken
  rw [List.getD_eq_getElem?_getD, List.getElem?_eq_getElem hi, Option.getD_some]
  have h2 : (List.map Token.index orig.tokens)[i]? =
      (List.range orig.tokens.length)[i]? := by
    rw [hdense]
  rw [List.getElem?_map, List.getElem?_eq_getElem hi, List.getElem?_range hi] at h2
  simpa using h2

lemma sortedTokens_collapse (orig : NLPInstance) (es : List Edge)
    (hdense : orig.denseTokens) (hwf : orig.edgesWF es) :
    EdgeTokenFilter.sortedTokens (EdgeTokenFilter.collapseTokens orig es) =
      (survIdxList es orig.tokens.length).map orig.getToken := by
  haveI : IsTotal Token (fun a b => a.index ≤ b.index) :=
    ⟨fun a b => Nat.le_total a.index b.index⟩
  haveI : IsTrans Token (fun a b => a.index ≤ b.index) :=
    ⟨fun a b c h1 h2 => Nat.le_trans h1 h2⟩
  have hperm : (EdgeTokenFilter.sortedTokens
      (EdgeTokenFilter.collapseTokens orig es)).Perm
      (EdgeTokenFilter.collapseTokens orig es) :=
    List.perm_insertionSort _ _
  have hsortedL : (EdgeTokenFilter.sortedTokens
      (EdgeTokenFilter.collapseTokens orig es)).Sorted
      (fun a b => a.index ≤ b.index) :=
    List.sorted_insertionSort _ _
  have hmemL : ∀ x, x ∈ EdgeTokenFilter.sortedTokens
      (EdgeTokenFilter.collapseTokens orig es) ↔
      ∃ i, survivesSpec es i ∧ x = orig.getToken i := by
    intro x
    rw [hperm.mem_iff]
    exact mem_collapseTokens orig es x hwf
  have hself : ∀ x ∈ EdgeTokenFilter.sortedTokens
      (EdgeTokenFilter.collapseTokens orig es),
      x = orig.getToken x.index ∧ x.index ∈ survIdxList es orig.tokens.length := by
    intro x hx
    rcases (hmemL x).1 hx with ⟨i, hi, rfl⟩
    have hlt := survivesSpec_lt orig es hwf i hi
    rw [getToken_index orig hdense i hlt]
    exact ⟨rfl, (mem_survIdxList es _ i).2 ⟨hlt, hi⟩⟩
  have hnodupL : (EdgeTokenFilter.sortedTokens
      (EdgeTokenFilter.collapseTokens orig es)).Nodup :=
    hperm.nodup_iff.2 (nodup_collapseTokens orig es)
  have hmapped : ((EdgeTokenFilter.sortedTokens
      (EdgeTokenFilter.collapseTokens orig es)).map Token.index).Pairwise
      (· < ·) := by
    have hle : ((EdgeTokenFilter.sortedTokens
        (EdgeTokenFilter.collapseTokens orig es)).map Token.index).Pairwise
        (· ≤ ·) := by
      rw [List.pairwise_map]
      exact hsortedL
    have hne : ((EdgeTokenFilter.sortedTokens
        (EdgeTokenFilter.collapseTokens orig es)).map Token.index).Pairwise
        (· ≠ ·) := by
      refine List.Nodup.map_on ?_ hnodupL
      intro x hx y hy hxy
      rw [(hself x hx).1, (hself y hy).1, hxy]
    exact (hle.and hne).imp fun h => Nat.lt_of_le_of_ne h.1 h.2
  have hmemmap : ∀ x, x ∈ (EdgeTokenFilter.sortedTokens
      (EdgeTokenFilter.collapseTokens orig es)).map Token.index ↔
      x ∈ survIdxList es orig.tokens.length := by
    intro x
    rw [List.mem_map]
    constructor
    · rintro ⟨t, ht, rfl⟩
      exact (hself t ht).2
    · intro hx
      rcases (mem_survIdxList es _ x).1 hx with ⟨hlt, hs⟩
      refine ⟨orig.getToken x, (hmemL _).2 ⟨x, hs, rfl⟩, ?_⟩
      exact getToken_index orig hdense x hlt
  have hmap : (EdgeTokenFilter.sortedTokens
      (EdgeTokenFilter.collapseTokens orig es)).map Token.index =
      survIdxList es orig.tokens.length :=
    sortedLt_ext hmapped (survIdx_sorted es _) hmemmap
  have hid : (EdgeTokenFilter.sortedTokens
      (EdgeTokenFilter.collapseTokens orig es)).map
        (fun t => orig.getToken t.index) =
      EdgeTokenFilter.sortedTokens (EdgeTokenFilter.collapseTokens orig es) := by
    have h3 : ∀ t ∈ EdgeTokenFilter.sortedTokens
        (EdgeTokenFilter.collapseTokens orig es),
        orig.getToken t.index = t := fun t ht => ((hself t ht).1).symm
    rw [List.map_congr_left h3, List.map_id']
  calc EdgeTokenFilter.sortedTokens (EdgeTokenFilter.collapseTokens orig es)
      = (EdgeTokenFilter.sortedTokens
          (EdgeTokenFilter.collapseTokens orig es)).map
            (fun t => orig.getToken t.index) := hid.symm
    _ = ((EdgeTokenFilter.sortedTokens
          (EdgeTokenFilter.collapseTokens orig es)).map Token.index).map
            orig.getToken := by rw [List.map_map]; rfl
    _ = (survIdxList es orig.tokens.length).map orig.getToken := by rw [hmap]

/-! ### Helper lemmas: the renumbering loop -/

lemma buildTokenMaps_go (orig : NLPInstance) :
    ∀ (l : List Token) (u : List Token) (o2n n2o : List (Token × Token)),
      l.foldl (EdgeTokenFilter.collapseStep orig) (u, o2n, n2o) =
        (u ++ (List.enumFrom u.length l).map
            (fun p => (⟨p.1, (orig.getToken p.2.index).props⟩ : Token)),
         o2n ++ l.zip ((List.enumFrom u.length l).map
            (fun p => (⟨p.1, (orig.getToken p.2.index).props⟩ : Token))),
         n2o ++ ((List.enumFrom u.length l).map
            (fun p => (⟨p.1, (orig.getToken p.2.index).props⟩ : Token))).zip l) := by
  intro l
  induction l with
  | nil =>
    intro u o2n n2o
    simp [List.enumFrom]
  | cons t rest ih =>
    intro u o2n n2o
    rw [List.foldl_cons]
    show (rest.foldl (EdgeTokenFilter.collapseStep orig)
      (u ++ [⟨u.length, (orig.getToken t.index).props⟩],
       o2n ++ [(t, ⟨u.length, (orig.getToken t.index).props⟩)],
       n2o ++ [(⟨u.length, (orig.getToken t.index).props⟩, t)])) = _
    rw [ih]
    simp only [List.enumFrom_cons, List.length_append, List.length_singleton,
      List.map_cons, List.zip_cons_cons, List.append_assoc, List.singleton_append]

lemma buildTokenMaps_eq (orig : NLPInstance) (sorted : List Token) :
    EdgeTokenFilter.buildTokenMaps orig sorted =
      ((List.enumFrom 0 sorted).map
          (fun p => (⟨p.1, (orig.getToken p.2.index).props⟩ : Token)),
       sorted.zip ((List.enumFrom 0 sorted).map
          (fun p => (⟨p.1, (orig.getToken p.2.index).props⟩ : Token))),
       ((List.enumFrom 0 sorted).map
          (fun p => (⟨p.1, (orig.getToken p.2.index).props⟩ : Token))).zip sorted) := by
  unfold EdgeTokenFilter.buildTokenMaps
  rw [buildTokenMaps_go orig sorted [] [] []]
  simp

lemma lookup_zip_of_nodup {α β : Type} [DecidableEq α] :
    ∀ (l1 : List α) (l2 : List β) (i : Nat) (h1 : i < l1.length)
      (h2 : i < l2.length), l1.Nodup →
      List.lookup (l1.get ⟨i, h1⟩) (l1.zip l2) = some (l2.get ⟨i, h2⟩) := by
  intro l1
  induction l1 with
  | nil => intro l2 i h1; exact absurd h1 (by simp)
  | cons a t1 ih =>
    intro l2 i h1 h2 hnd
    cases l2 with
    | nil => exact absurd h2 (by simp)
    | cons b t2 =>
      rw [List.zip_cons_cons]
      cases i with
      | zero =>
        rw [List.lookup_cons]
        simp
      | succ j =>
        have hkey : (a :: t1).get ⟨j + 1, h1⟩ = t1.get ⟨j, by simpa using h1⟩ := rfl
        have hne : ((a :: t1).get ⟨j + 1, h1⟩) ≠ a := by
          rw [hkey]
          intro hEq
          exact (List.nodup_cons.1 hnd).1 (hEq ▸ List.get_mem t1 j _)
        rw [List.lookup_cons]
        rw [show (((a :: t1).get ⟨j + 1, h1⟩) == a) = false from
          beq_eq_false_iff_ne.2 hne]
        rw [hkey]
        exact ih t2 j (by simpa using h1) (by simpa using h2) (List.nodup_cons.1 hnd).2

lemma mem_edgeSetAdd (s : List Edge) (e x : Edge) :
    x ∈ EdgeTokenFilter.edgeSetAdd s e ↔ x ∈ s ∨ x = e := by
  unfold EdgeTokenFilter.edgeSetAdd
  by_cases h : e ∈ s
  · rw [if_pos h]
    constructor
    · exact Or.inl
    · rintro (hx | rfl)
      · exact hx
      · exact h
  · rw [if_neg h, List.mem_append, List.mem_singleton]

lemma updatedEdgesOf_some (o2n : List (Token × Token)) (f : Edge → Edge) :
    ∀ (es : List Edge) (acc : List Edge),
      (∀ e ∈ es, EdgeTokenFilter.mapEdge o2n e = some (f e)) →
      ∃ L, es.foldlM
          (fun acc e =>
            match EdgeTokenFilter.mapEdge o2n e with
            | none => none
            | some e2 => some (EdgeTokenFilter.edgeSetAdd acc e2))
          acc = some L ∧
        ∀ x, x ∈ L ↔ x ∈ acc ∨ ∃ e ∈ es, x = f e := by
  intro es
  induction es with
  | nil =>
    intro acc _
    refine ⟨acc, by rw [List.foldlM_nil]; rfl, ?_⟩
    intro x
    simp
  | cons e rest ih =>
    intro acc h
    rcases ih (EdgeTokenFilter.edgeSetAdd acc (f e))
        (fun e' he' => h e' (List.mem_cons_of_mem e he')) with ⟨L, hL, hmem⟩
    refine ⟨L, ?_, ?_⟩
    · rw [List.foldlM_cons, h e (List.mem_cons_self e rest)]
      exact hL
    · intro x
      rw [hmem x, mem_edgeSetAdd]
      simp only [List.mem_cons, exists_eq_or_imp]
      tauto

lemma endpoint_from_survives (orig : NLPInstance) (es : List Edge)
    (hwf : orig.edgesWF es) (e : Edge) (he : e ∈ es) :
    survivesSpec es e.From.index := by
  refine ⟨e, he, ?_⟩
  cases hrt : e.renderType with
  | dependency => exact Or.inl ⟨rfl, Or.inl rfl⟩
  | span => exact Or.inr ⟨rfl, Nat.le_refl _, (hwf e he).2.2.2.2 hrt⟩

lemma endpoint_to_survives (orig : NLPInstance) (es : List Edge)
    (hwf : orig.edgesWF es) (e : Edge) (he : e ∈ es) :
    survivesSpec es e.To.index := by
  refine ⟨e, he, ?_⟩
  cases hrt : e.renderType with
  | dependency => exact Or.inl ⟨rfl, Or.inr rfl⟩
  | span => exact Or.inr ⟨rfl, (hwf e he).2.2.2.2 hrt, Nat.le_refl _⟩

lemma survIdx_nodup (es : List Edge) (n : Nat) : (survIdxList es n).Nodup :=
  (survIdx_sorted es n).imp fun h => Nat.ne_of_lt h

lemma sorted_map_nodup (orig : NLPInstance) (es : List Edge)
    (hdense : orig.denseTokens) :
    ((survIdxList es orig.tokens.length).map orig.getToken).Nodup := by
  refine List.Nodup.map_on ?_ (survIdx_nodup es _)
  intro x hx y hy hxy
  have hxlt := ((mem_survIdxList es _ x).1 hx).1
  have hylt := ((mem_survIdxList es _ y).1 hy).1
  have := congrArg Token.index hxy
  rwa [getToken_index orig hdense x hxlt, getToken_index orig hdense y hylt] at this

lemma lookup_collapse (orig : NLPInstance) (es : List Edge)
    (hdense : orig.denseTokens) (i : Nat)
    (hi : i ∈ survIdxList es orig.tokens.length) :
    List.lookup (orig.getToken i)
      (((survIdxList es orig.tokens.length).map orig.getToken).zip
        ((List.enumFrom 0 ((survIdxList es orig.tokens.length).map
            orig.getToken)).map
          (fun p => (⟨p.1, (orig.getToken p.2.index).props⟩ : Token)))) =
      some ⟨(survIdxList es orig.tokens.length).indexOf i,
        (orig.getToken i).props⟩ := by
  have hj : (survIdxList es orig.tokens.length).indexOf i <
      (survIdxList es orig.tokens.length).length :=
    List.indexOf_lt_length.2 hi
  have hjs : (survIdxList es orig.tokens.length).indexOf i <
      ((survIdxList es orig.tokens.length).map orig.getToken).length := by
    simpa using hj
  have hju : (survIdxList es orig.tokens.length).indexOf i <
      ((List.enumFrom 0 ((survIdxList es orig.tokens.length).map
          orig.getToken)).map
        (fun p => (⟨p.1, (orig.getToken p.2.index).props⟩ : Token))).length := by
    simp [List.enumFrom_length]
    exact hj
  have hidx : (survIdxList es orig.tokens.length)[List.indexOf i
      (survIdxList es orig.tokens.length)] = i := List.getElem_indexOf hj
  have hgs : ((survIdxList es orig.tokens.length).map orig.getToken).get
      ⟨(survIdxList es orig.tokens.length).indexOf i, hjs⟩ = orig.getToken i := by
    simp only [List.get_eq_getElem, List.getElem_map, hidx]
  rw [← hgs,
    lookup_zip_of_nodup _ _ _ hjs hju (sorted_map_nodup orig es hdense)]
  simp only [List.get_eq_getElem, List.getElem_map, List.getElem_enumFrom, hidx,
    Option.some.injEq]
  rw [getToken_index orig hdense i ((mem_survIdxList es _ i).1 hi).1]
  simp

lemma mapEdge_collapse_eq (orig : NLPInstance) (es : List Edge)
    (hdense : orig.denseTokens) (hwf : orig.edgesWF es) (e : Edge) (he : e ∈ es) :
    EdgeTokenFilter.mapEdge
      (((survIdxList es orig.tokens.length).map orig.getToken).zip
        ((List.enumFrom 0 ((survIdxList es orig.tokens.length).map
            orig.getToken)).map
          (fun p => (⟨p.1, (orig.getToken p.2.index).props⟩ : Token))))
      e = some (rewrittenEdge orig (survIdxList es orig.tokens.length) e) := by
  have hFmem : e.From.index ∈ survIdxList es orig.tokens.length :=
    (mem_survIdxList es _ _).2 ⟨(hwf e he).1, endpoint_from_survives orig es hwf e he⟩
  have hTmem : e.To.index ∈ survIdxList es orig.tokens.length :=
    (mem_survIdxList es _ _).2 ⟨(hwf e he).2.1, endpoint_to_survives orig es hwf e he⟩
  have hF := lookup_collapse orig es hdense e.From.index hFmem
  have hT := lookup_collapse orig es hdense e.To.index hTmem
  rw [← (hwf e he).2.2.1] at hF
  rw [← (hwf e he).2.2.2.1] at hT
  unfold EdgeTokenFilter.mapEdge
  rw [hF, hT]
  unfold rewrittenEdge
  rw [← (hwf e he).2.2.1, ← (hwf e he).2.2.2.1]

/-! ### Helper lemmas: the split-point loop -/

lemma firstAtOrAfter_none_char :
    ∀ (l : List Nat) (sp : Nat), firstAtOrAfter l sp = none →
      ∀ j (hj : j < l.length), l.get ⟨j, hj⟩ < sp := by
  intro l
  induction l with
  | nil => intro sp _ j hj; exact absurd hj (by simp)
  | cons i rest ih =>
    intro sp h j hj
    rw [firstAtOrAfter] at h
    by_cases hle : sp ≤ i
    · rw [if_pos hle] at h
      exact absurd h (by simp)
    · rw [if_neg hle] at h
      cases j with
      | zero => exact Nat.lt_of_not_le hle
      | succ j2 =>
        exact ih sp (Option.map_eq_none'.1 h) j2 (by simpa using hj)

lemma firstAtOrAfter_some_char :
    ∀ (l : List Nat) (sp c : Nat), firstAtOrAfter l sp = some c →
      ∃ hc : c < l.length, sp ≤ l.get ⟨c, hc⟩ ∧
        ∀ j (hj : j < l.length), j < c → l.get ⟨j, hj⟩ < sp := by
  intro l
  induction l with
  | nil => intro sp c h; exact absurd h (by rw [firstAtOrAfter]; simp)
  | cons i rest ih =>
    intro sp c h
    rw [firstAtOrAfter] at h
    by_cases hle : sp ≤ i
    · rw [if_pos hle] at h
      have hc0 : c = 0 := by simpa using h.symm
      subst hc0
      exact ⟨by simp, hle, fun j hj hjc => absurd hjc (by omega)⟩
    · rw [if_neg hle] at h
      rcases Option.map_eq_some'.1 h with ⟨c2, hc2, rfl⟩
      rcases ih sp c2 hc2 with ⟨hlt, hge, hbefore⟩
      refine ⟨by simpa using hlt, hge, ?_⟩
      intro j hj hjc
      cases j with
      | zero => exact Nat.lt_of_not_le hle
      | succ j2 => exact hbefore j2 (by simpa using hj) (by omega)

lemma firstAtOrAfter_eq_some_of :
    ∀ (l : List Nat) (sp c : Nat) (hc : c < l.length),
      sp ≤ l.get ⟨c, hc⟩ →
      (∀ j (hj : j < l.length), j < c → l.get ⟨j, hj⟩ < sp) →
      firstAtOrAfter l sp = some c := by
  intro l
  induction l with
  | nil => intro sp c hc; exact absurd hc (by simp)
  | cons i rest ih =>
    intro sp c hc hge hbefore
    rw [firstAtOrAfter]
    cases c with
    | zero => rw [if_pos (show sp ≤ i from hge)]
    | succ c2 =>
      have hi : i < sp := hbefore 0 (by simp) (by omega)
      rw [if_neg (by omega)]
      rw [ih sp c2 (by simpa using hc) hge
        (fun j hj hjc => hbefore (j + 1) (by simpa using hj) (by omega))]
      rfl

lemma firstAtOrAfter_eq_none_of :
    ∀ (l : List Nat) (sp : Nat),
      (∀ j (hj : j < l.length), l.get ⟨j, hj⟩ < sp) →
      firstAtOrAfter l sp = none := by
  intro l
  induction l with
  | nil => intro sp _; rfl
  | cons i rest ih =>
    intro sp hall
    rw [firstAtOrAfter]
    have hi : i < sp := hall 0 (by simp)
    rw [if_neg (by omega)]
    rw [ih sp (fun j hj => hall (j + 1) (by simpa using hj))]
    rfl

lemma specSplitPoint_before (l : List Nat) (sp j : Nat) (hj : j < l.length)
    (h : j < specSplitPoint l sp) : l.get ⟨j, hj⟩ < sp := by
  unfold specSplitPoint at h
  cases hfa : firstAtOrAfter l sp with
  | none => exact firstAtOrAfter_none_char l sp hfa j hj
  | some c =>
    rw [hfa] at h
    rcases firstAtOrAfter_some_char l sp c hfa with ⟨-, -, hbefore⟩
    exact hbefore j hj h

lemma specSplitPoint_lt (l : List Nat) (sp : Nat) (hne : l ≠ []) :
    specSplitPoint l sp < l.length := by
  unfold specSplitPoint
  cases hfa : firstAtOrAfter l sp with
  | none =>
    show l.length - 1 < l.length
    have : 0 < l.length := List.length_pos.2 hne
    omega
  | some c =>
    show c < l.length
    rcases firstAtOrAfter_some_char l sp c hfa with ⟨hc, -, -⟩
    exact hc

lemma specSplitPoint_of_first (l : List Nat) (sp c : Nat) (hc : c < l.length)
    (hge : sp ≤ l.get ⟨c, hc⟩)
    (hbefore : ∀ j (hj : j < l.length), j < c → l.get ⟨j, hj⟩ < sp) :
    specSplitPoint l sp = c := by
  unfold specSplitPoint
  rw [firstAtOrAfter_eq_some_of l sp c hc hge hbefore]

lemma specSplitPoint_of_none_at (l : List Nat) (sp : Nat)
    (hall : ∀ j (hj : j < l.length), l.get ⟨j, hj⟩ < sp) :
    specSplitPoint l sp = l.length - 1 := by
  unfold specSplitPoint
  rw [firstAtOrAfter_eq_none_of l sp hall]

lemma splitAdvanceGo_succ_eq (updT : List Token) (n2o : List (Token × Token))
    (n sp f c : Nat) :
    EdgeTokenFilter.splitAdvanceGo updT n2o n sp (f + 1) c =
      match EdgeTokenFilter.lookupOldIndex updT n2o c with
      | none => none
      | some oldIndex =>
        if c + 1 < n ∧ oldIndex < sp then
          EdgeTokenFilter.splitAdvanceGo updT n2o n sp f (c + 1)
        else some c := rfl

lemma splitAdvanceGo_spec (updT : List Token) (n2o : List (Token × Token))
    (sIdx : List Nat)
    (hidx : ∀ i (h : i < sIdx.length),
      EdgeTokenFilter.lookupOldIndex updT n2o i = some (sIdx.get ⟨i, h⟩))
    (sp : Nat) :
    ∀ (fuel c : Nat), fuel = sIdx.length - c → ∀ (hc : c < sIdx.length),
      (∀ j (hj : j < sIdx.length), j < c → sIdx.get ⟨j, hj⟩ < sp) →
      EdgeTokenFilter.splitAdvanceGo updT n2o sIdx.length sp fuel c =
        some (specSplitPoint sIdx sp) := by
  intro fuel
  induction fuel with
  | zero =>
    intro c hfuel hc _
    exact absurd hfuel (by omega)
  | succ f ih =>
    intro c hfuel hc hbefore
    rw [splitAdvanceGo_succ_eq, hidx c hc]
    show (if c + 1 < sIdx.length ∧ sIdx.get ⟨c, hc⟩ < sp then
        EdgeTokenFilter.splitAdvanceGo updT n2o sIdx.length sp f (c + 1)
      else some c) = some (specSplitPoint sIdx sp)
    by_cases hcond : c + 1 < sIdx.length ∧ sIdx.get ⟨c, hc⟩ < sp
    · rw [if_pos hcond]
      refine ih (c + 1) (by omega) hcond.1 ?_
      intro j hj hjc
      rcases Nat.lt_or_ge j c with h | h
      · exact hbefore j hj h
      · have hjeq : j = c := by omega
        subst hjeq
        exact hcond.2
    · rw [if_neg hcond]
      congr 1
      by_cases hge : sp ≤ sIdx.get ⟨c, hc⟩
      · exact (specSplitPoint_of_first sIdx sp c hc hge hbefore).symm
      · have hlast : c + 1 ≥ sIdx.length := by
          by_contra hlt
          exact hcond ⟨by omega, Nat.lt_of_not_le hge⟩
        have hall : ∀ j (hj : j < sIdx.length), sIdx.get ⟨j, hj⟩ < sp := by
          intro j hj
          rcases Nat.lt_or_ge j c with h | h
          · exact hbefore j hj h
          · have hjeq : j = c := by omega
            subst hjeq
            exact Nat.lt_of_not_le hge
        rw [specSplitPoint_of_none_at sIdx sp hall]
        omega

lemma splitAdvance_spec (updT : List Token) (n2o : List (Token × Token))
    (sIdx : List Nat)
    (hidx : ∀ i (h : i < sIdx.length),
      EdgeTokenFilter.lookupOldIndex updT n2o i = some (sIdx.get ⟨i, h⟩))
    (sp c : Nat) (hc : c < sIdx.length)
    (hbefore : ∀ j (hj : j < sIdx.length), j < c → sIdx.get ⟨j, hj⟩ < sp) :
    EdgeTokenFilter.splitAdvance updT n2o sIdx.length sp c =
      some (specSplitPoint sIdx sp) :=
  splitAdvanceGo_spec updT n2o sIdx hidx sp (sIdx.length - c) c rfl hc hbefore

lemma newSplitPoints_spec (updT : List Token) (n2o : List (Token × Token))
    (sIdx : List Nat)
    (hidx : ∀ i (h : i < sIdx.length),
      EdgeTokenFilter.lookupOldIndex updT n2o i = some (sIdx.get ⟨i, h⟩))
    (hne : sIdx ≠ []) :
    ∀ (sps : List Nat), sps.Pairwise (· ≤ ·) →
      ∀ (c : Nat), c < sIdx.length →
      (∀ sp ∈ sps, ∀ j (hj : j < sIdx.length), j < c → sIdx.get ⟨j, hj⟩ < sp) →
      EdgeTokenFilter.newSplitPoints updT n2o sIdx.length sps c =
        some (sps.map (specSplitPoint sIdx)) := by
  intro sps
  induction sps with
  | nil => intro _ c _ _; rfl
  | cons sp rest ih =>
    intro hsorted c hc hinv
    rw [List.pairwise_cons] at hsorted
    have hadv := splitAdvance_spec updT n2o sIdx hidx sp c hc
      (fun j hj hjc => hinv sp (List.mem_cons_self sp rest) j hj hjc)
    have hrec := ih hsorted.2 (specSplitPoint sIdx sp)
      (specSplitPoint_lt sIdx sp hne)
      (fun sp' hsp' j hj hjc =>
        Nat.lt_of_lt_of_le (specSplitPoint_before sIdx sp j hj hjc)
          (hsorted.1 sp' hsp'))
    rw [EdgeTokenFilter.newSplitPoints, hadv]
    show (match EdgeTokenFilter.newSplitPoints updT n2o sIdx.length rest
        (specSplitPoint sIdx sp) with
      | none => none
      | some tail => some (specSplitPoint sIdx sp :: tail)) =
      some (List.map (specSplitPoint sIdx) (sp :: rest))
    rw [hrec, List.map_cons]

lemma splitAdvanceGo_some (updT : List Token) (n2o : List (Token × Token))
    (sIdx : List Nat)
    (hidx : ∀ i (h : i < sIdx.length),
      EdgeTokenFilter.lookupOldIndex updT n2o i = some (sIdx.get ⟨i, h⟩))
    (sp : Nat) :
    ∀ (fuel c : Nat), fuel = sIdx.length - c → c < sIdx.length →
      ∃ r, EdgeTokenFilter.splitAdvanceGo updT n2o sIdx.length sp fuel c =
        some r ∧ r < sIdx.length := by
  intro fuel
  induction fuel with
  | zero =>
    intro c hfuel hc
    exact absurd hfuel (by omega)
  | succ f ih =>
    intro c hfuel hc
    rw [splitAdvanceGo_succ_eq, hidx c hc]
    show ∃ r, (if c + 1 < sIdx.length ∧ sIdx.get ⟨c, hc⟩ < sp then
        EdgeTokenFilter.splitAdvanceGo updT n2o sIdx.length sp f (c + 1)
      else some c) = some r ∧ r < sIdx.length
    by_cases hcond : c + 1 < sIdx.length ∧ sIdx.get ⟨c, hc⟩ < sp
    · rw [if_pos hcond]
      exact ih (c + 1) (by omega) hcond.1
    · rw [if_neg hcond]
      exact ⟨c, rfl, hc⟩

lemma newSplitPoints_some (updT : List Token) (n2o : List (Token × Token))
    (sIdx : List Nat)
    (hidx : ∀ i (h : i < sIdx.length),
      EdgeTokenFilter.lookupOldIndex updT n2o i = some (sIdx.get ⟨i, h⟩)) :
    ∀ (sps : List Nat) (c : Nat), c < sIdx.length →
      ∃ out, EdgeTokenFilter.newSplitPoints updT n2o sIdx.length sps c =
        some out ∧ out.length = sps.length := by
  intro sps
  induction sps with
  | nil => intro c _; exact ⟨[], rfl, rfl⟩
  | cons sp rest ih =>
    intro c hc
    rcases splitAdvanceGo_some updT n2o sIdx hidx sp (sIdx.length - c) c rfl hc
      with ⟨r, hr, hrlt⟩
    rcases ih r hrlt with ⟨out, hout, hlen⟩
    refine ⟨r :: out, ?_, by simp [hlen]⟩
    rw [EdgeTokenFilter.newSplitPoints]
    rw [show EdgeTokenFilter.splitAdvance updT n2o sIdx.length sp c = some r
      from hr]
    show (match EdgeTokenFilter.newSplitPoints updT n2o sIdx.length rest r with
      | none => none
      | some tail => some (r :: tail)) = some (r :: out)
    rw [hout]

/-! ### Helper lemmas: the renumbered token list and its index lookups -/

lemma upd_nodup (orig : NLPInstance) (sorted : List Token) :
    ((List.enumFrom 0 sorted).map
      (fun (p : Nat × Token) => (⟨p.1, (orig.getToken p.2.index).props⟩ : Token))).Nodup := by
  apply List.Nodup.of_map Token.index
  rw [List.map_map]
  have hcomp : (Token.index ∘ fun p =>
      (⟨p.1, (orig.getToken p.2.index).props⟩ : Token)) =
      (Prod.fst : Nat × Token → Nat) := rfl
  rw [hcomp, List.enumFrom_map_fst]
  exact List.nodup_range' 0 sorted.length

lemma lookupOldIndex_eq (updT : List Token) (n2o : List (Token × Token))
    (i : Nat) (h : i < updT.length) (tk : Token)
    (htk : List.lookup (updT.get ⟨i, h⟩) n2o = some tk) :
    EdgeTokenFilter.lookupOldIndex updT n2o i = some tk.index := by
  unfold EdgeTokenFilter.lookupOldIndex
  rw [List.get?_eq_get h]
  show (match List.lookup (updT.get ⟨i, h⟩) n2o with
    | none => none
    | some oldToken => some oldToken.index) = some tk.index
  rw [htk]

lemma lookupOldIndex_collapse (orig : NLPInstance) (es : List Edge)
    (hdense : orig.denseTokens) (i : Nat)
    (h : i < (survIdxList es orig.tokens.length).length) :
    EdgeTokenFilter.lookupOldIndex
      ((List.enumFrom 0 ((survIdxList es orig.tokens.length).map
          orig.getToken)).map
        (fun (p : Nat × Token) => (⟨p.1, (orig.getToken p.2.index).props⟩ : Token)))
      (((List.enumFrom 0 ((survIdxList es orig.tokens.length).map
          orig.getToken)).map
        (fun (p : Nat × Token) => (⟨p.1, (orig.getToken p.2.index).props⟩ : Token))).zip
        ((survIdxList es orig.tokens.length).map orig.getToken))
      i = some ((survIdxList es orig.tokens.length).get ⟨i, h⟩) := by
  have hup : i < ((List.enumFrom 0 ((survIdxList es orig.tokens.length).map
      orig.getToken)).map
      (fun (p : Nat × Token) => (⟨p.1, (orig.getToken p.2.index).props⟩ : Token))).length := by
    simp [List.enumFrom_length]
    exact h
  have hso : i < ((survIdxList es orig.tokens.length).map orig.getToken).length := by
    simpa using h
  refine (lookupOldIndex_eq _ _ i hup _
    (lookup_zip_of_nodup _ _ i hup hso (upd_nodup orig _))).trans ?_
  congr 1
  simp only [List.get_eq_getElem, List.getElem_map]
  refine getToken_index orig hdense _ ?_
  exact ((mem_survIdxList es _ _).1 (List.get_mem _ i _)).1

/-! ### Helper lemmas: the filtered edge set is a subset of the input -/

lemma mem_edgeSetUpdate_sub (x : Edge) :
    ∀ (p s : List Edge), x ∈ EdgeTokenFilter.edgeSetUpdate s p → x ∈ s ∨ x ∈ p := by
  intro p
  induction p with
  | nil => intro s h; exact Or.inl h
  | cons y rest ih =>
    intro s h
    unfold EdgeTokenFilter.edgeSetUpdate at h ih
    rw [List.foldl_cons] at h
    rcases ih _ h with h2 | h2
    · rcases (mem_edgeSetAdd s y x).1 h2 with h3 | rfl
      · exact Or.inl h3
      · exact Or.inr (List.mem_cons_self _ _)
    · exact Or.inr (List.mem_cons_of_mem _ h2)

lemma pathInner_sub (E : List Edge) (x : Edge) :
    ∀ (plist : List (List Edge)) (acc : List Edge),
      (∀ q ∈ plist, ∀ y ∈ q, y ∈ E) →
      x ∈ plist.foldl (fun result path =>
        EdgeTokenFilter.edgeSetUpdate result path) acc →
      x ∈ acc ∨ x ∈ E := by
  intro plist
  induction plist with
  | nil => intro acc _ h; exact Or.inl h
  | cons q rest ih =>
    intro acc hq h
    rw [List.foldl_cons] at h
    rcases ih _ (fun q' h' y hy => hq q' (List.mem_cons_of_mem q h') y hy) h with
      h2 | h2
    · rcases mem_edgeSetUpdate_sub x q acc h2 with h3 | h3
      · exact Or.inl h3
      · exact Or.inr (hq q (List.mem_cons_self q rest) x h3)
    · exact Or.inr h2

lemma pathMid_sub (E : List Edge) (S : List String) (ww : Bool) (F : Token)
    (x : Edge)
    (hpaths : ∀ (T : Token),
      ∀ q ∈ ((EdgeTokenFilter.calculatePaths E).getPaths F T).getD [],
      ∀ y ∈ q, y ∈ E) :
    ∀ (tlist : List Token) (acc : List Edge),
      x ∈ tlist.foldl
        (fun result toTok =>
          if toTok.propertiesContain S ww then
            (((EdgeTokenFilter.calculatePaths E).getPaths F toTok).getD []).foldl
              (fun result path => EdgeTokenFilter.edgeSetUpdate result path)
              result
          else result)
        acc →
      x ∈ acc ∨ x ∈ E := by
  intro tlist
  induction tlist with
  | nil => intro acc h; exact Or.inl h
  | cons T rest ih =>
    intro acc h
    rw [List.foldl_cons] at h
    by_cases hT : T.propertiesContain S ww = true
    · rw [if_pos hT] at h
      rcases ih _ h with h2 | h2
      · exact pathInner_sub E x _ acc (fun q hq y hy => hpaths T q hq y hy) h2
      · exact Or.inr h2
    · rw [if_neg hT] at h
      exact ih _ h

lemma pathOut_sub (E : List Edge) (S : List String) (ww : Bool) (x : Edge)
    (hpaths : ∀ (F T : Token),
      ∀ q ∈ ((EdgeTokenFilter.calculatePaths E).getPaths F T).getD [],
      ∀ y ∈ q, y ∈ E) :
    ∀ (dlist : List Token) (acc : List Edge),
      x ∈ dlist.foldl
        (fun result From =>
          if From.propertiesContain S ww then
            ((EdgeTokenFilter.calculatePaths E).getTos From).foldl
              (fun result toTok =>
                if toTok.propertiesContain S ww then
                  (((EdgeTokenFilter.calculatePaths E).getPaths From
                      toTok).getD []).foldl
                    (fun result path => EdgeTokenFilter.edgeSetUpdate result path)
                    result
                else result)
              result
          else result)
        acc →
      x ∈ acc ∨ x ∈ E := by
  intro dlist
  induction dlist with
  | nil => intro acc h; exact Or.inl h
  | cons F rest ih =>
    intro acc h
    rw [List.foldl_cons] at h
    by_cases hF : F.propertiesContain S ww = true
    · rw [if_pos hF] at h
      rcases ih _ h with h2 | h2
      · exact pathMid_sub E S ww F x (fun T => hpaths F T) _ acc h2
      · exact Or.inr h2
    · rw [if_neg hF] at h
      exact ih _ h

lemma filterEdges_sub (cfg : EdgeTokenFilter) (E : List Edge) :
    ∀ x ∈ cfg.filterEdges E, x ∈ E := by
  intro x hx
  unfold EdgeTokenFilter.filterEdges at hx
  by_cases h0 : cfg.allowedProperties.length = 0
  · rw [if_pos h0] at hx
    exact hx
  · rw [if_neg h0] at hx
    by_cases hup : cfg.usePath = true
    · rw [if_pos hup] at hx
      have hpaths : ∀ (F T : Token),
          ∀ q ∈ ((EdgeTokenFilter.calculatePaths E).getPaths F T).getD [],
          ∀ y ∈ q, y ∈ E := by
        intro F T q hq y hy
        rcases (calc_map_iff E F T q).1 (getPaths_getD_sub _ _ _ _ hq) with
          ⟨e, he, rfl, -⟩
        rw [List.mem_singleton] at hy
        subst hy
        exact he
      rcases pathOut_sub E cfg.allowedProperties cfg.wholeWords x hpaths _ [] hx
        with h2 | h2
      · exact absurd h2 (by simp)
      · exact h2
    · rw [if_neg hup] at hx
      rw [foldl_filter_aux
        (fun e => e.From.propertiesContain cfg.allowedProperties cfg.wholeWords ||
          e.To.propertiesContain cfg.allowedProperties cfg.wholeWords) E [],
        List.nil_append, List.mem_filter] at hx
      exact hx.1

/-! ### Assembling the collapse branch of filter -/

lemma upd_reform (orig : NLPInstance) (es : List Edge)
    (hdense : orig.denseTokens) :
    (List.enumFrom 0 ((survIdxList es orig.tokens.length).map orig.getToken)).map
      (fun (p : Nat × Token) => (⟨p.1, (orig.getToken p.2.index).props⟩ : Token)) =
    (List.enumFrom 0 (survIdxList es orig.tokens.length)).map
      (fun p => (⟨p.1, (orig.getToken p.2).props⟩ : Token)) := by
  rw [List.enumFrom_map, List.map_map]
  apply List.map_congr_left
  intro p hp
  have hmem : p.2 ∈ survIdxList es orig.tokens.length := by
    have h1 : p.2 ∈ (List.enumFrom 0
        (survIdxList es orig.tokens.length)).map Prod.snd :=
      List.mem_map_of_mem Prod.snd hp
    rwa [List.enumFrom_map_snd] at h1
  have hlt := ((mem_survIdxList es _ _).1 hmem).1
  show (⟨p.1, (orig.getToken (orig.getToken p.2).index).props⟩ : Token) = _
  rw [getToken_index orig hdense p.2 hlt]

lemma filter_collapse_parts (cfg : EdgeTokenFilter) (orig : NLPInstance)
    (hc : cfg.collaps = true) (hdense : orig.denseTokens)
    (hwfE : orig.edgesWF orig.edges) :
    ∃ L : List Edge,
      (∀ x, x ∈ L ↔ ∃ e ∈ cfg.filterEdges orig.edges,
        x = rewrittenEdge orig
          (survIdxList (cfg.filterEdges orig.edges) orig.tokens.length) e) ∧
      ∀ sps : List Nat,
        EdgeTokenFilter.newSplitPoints
          ((List.enumFrom 0 ((survIdxList (cfg.filterEdges orig.edges)
              orig.tokens.length).map orig.getToken)).map
            (fun (p : Nat × Token) => (⟨p.1, (orig.getToken p.2.index).props⟩ : Token)))
          (((List.enumFrom 0 ((survIdxList (cfg.filterEdges orig.edges)
              orig.tokens.length).map orig.getToken)).map
            (fun (p : Nat × Token) => (⟨p.1, (orig.getToken p.2.index).props⟩ : Token))).zip
            ((survIdxList (cfg.filterEdges orig.edges)
              orig.tokens.length).map orig.getToken))
          (survIdxList (cfg.filterEdges orig.edges) orig.tokens.length).length
          orig.splitPoints 0 = some sps →
        cfg.filter orig = some
          ⟨(List.enumFrom 0 ((survIdxList (cfg.filterEdges orig.edges)
              orig.tokens.length).map orig.getToken)).map
            (fun (p : Nat × Token) => (⟨p.1, (orig.getToken p.2.index).props⟩ : Token)),
           L, orig.renderType, sps⟩ := by
  have hwfFe : orig.edgesWF (cfg.filterEdges orig.edges) :=
    fun e he => hwfE e (filterEdges_sub cfg orig.edges e he)
  have hsorted := sortedTokens_collapse orig (cfg.filterEdges orig.edges)
    hdense hwfFe
  obtain ⟨L, hL, hLmem⟩ := updatedEdgesOf_some
    (((survIdxList (cfg.filterEdges orig.edges) orig.tokens.length).map
        orig.getToken).zip
      ((List.enumFrom 0 ((survIdxList (cfg.filterEdges orig.edges)
          orig.tokens.length).map orig.getToken)).map
        (fun (p : Nat × Token) => (⟨p.1, (orig.getToken p.2.index).props⟩ : Token))))
    (rewrittenEdge orig
      (survIdxList (cfg.filterEdges orig.edges) orig.tokens.length))
    (cfg.filterEdges orig.edges) []
    (fun e he => mapEdge_collapse_eq orig (cfg.filterEdges orig.edges)
      hdense hwfFe e he)
  refine ⟨L, ?_, ?_⟩
  · intro x
    rw [hLmem x]
    simp
  · intro sps hsps
    have hlen : (EdgeTokenFilter.collapseTokens orig
        (cfg.filterEdges orig.edges)).length =
        (survIdxList (cfg.filterEdges orig.edges) orig.tokens.length).length := by
      have h2 := congrArg List.length hsorted
      rw [List.length_map] at h2
      have h3 : (EdgeTokenFilter.sortedTokens (EdgeTokenFilter.collapseTokens
          orig (cfg.filterEdges orig.edges))).length =
          (EdgeTokenFilter.collapseTokens orig
            (cfg.filterEdges orig.edges)).length :=
        (List.perm_insertionSort _ _).length_eq
      omega
    simp only [EdgeTokenFilter.filter, hc, Bool.true_eq_false, if_false]
    rw [hsorted, buildTokenMaps_eq]
    dsimp only
    rw [show EdgeTokenFilter.updatedEdgesOf
        (((survIdxList (cfg.filterEdges orig.edges) orig.tokens.length).map
            orig.getToken).zip
          ((List.enumFrom 0 ((survIdxList (cfg.filterEdges orig.edges)
              orig.tokens.length).map orig.getToken)).map
            (fun (p : Nat × Token) => (⟨p.1, (orig.getToken p.2.index).props⟩ : Token))))
        (cfg.filterEdges orig.edges) = some L from hL]
    show (match EdgeTokenFilter.newSplitPoints
        ((List.enumFrom 0 ((survIdxList (cfg.filterEdges orig.edges)
            orig.tokens.length).map orig.getToken)).map
          (fun (p : Nat × Token) => (⟨p.1, (orig.getToken p.2.index).props⟩ : Token)))
        (((List.enumFrom 0 ((survIdxList (cfg.filterEdges orig.edges)
            orig.tokens.length).map orig.getToken)).map
          (fun (p : Nat × Token) => (⟨p.1, (orig.getToken p.2.index).props⟩ : Token))).zip
          ((survIdxList (cfg.filterEdges orig.edges)
            orig.tokens.length).map orig.getToken))
        (EdgeTokenFilter.collapseTokens orig
          (cfg.filterEdges orig.edges)).length
        orig.splitPoints 0 with
      | none => none
      | some splitPoints => some
          (⟨(List.enumFrom 0 ((survIdxList (cfg.filterEdges orig.edges)
              orig.tokens.length).map orig.getToken)).map
            (fun (p : Nat × Token) => (⟨p.1, (orig.getToken p.2.index).props⟩ : Token)),
           L, orig.renderType, splitPoints⟩ : NLPInstance)) = _
    rw [hlen, hsps]

/-! ### Claim theorems: C2, C3, C4 -/

/-- Claim C2 (amended): for a well-formed instance, filter with collapse
enabled - provided at least one token survives, or the instance has no split
points (otherwise the split-point loop of the source raises, see the
counterexample) - returns an instance whose tokens are exactly the surviving
tokens (dependency endpoints, and every index of a span edge's inclusive
range), in ascending order of original index, renumbered contiguously from 0
and carrying the original properties, and whose edges are exactly the
surviving edges rewritten to the renumbered tokens with label, note, type,
renderType and description unchanged. -/
theorem claim_C2_collapse_tokens_edges (cfg : EdgeTokenFilter)
    (orig : NLPInstance) (hc : cfg.collaps = true) (hwf : orig.WellFormed)
    (hne : survIdxList (cfg.filterEdges orig.edges) orig.tokens.length ≠ [] ∨
      orig.splitPoints = []) :
    ∃ inst', cfg.filter orig = some inst' ∧
      inst'.tokens = (List.enumFrom 0
        (survIdxList (cfg.filterEdges orig.edges) orig.tokens.length)).map
        (fun p => (⟨p.1, (orig.getToken p.2).props⟩ : Token)) ∧
      (∀ x, x ∈ inst'.edges ↔ ∃ e ∈ cfg.filterEdges orig.edges,
        x = rewrittenEdge orig
          (survIdxList (cfg.filterEdges orig.edges) orig.tokens.length) e) := by
  obtain ⟨hdense, hwfE, -⟩ := hwf
  obtain ⟨L, hLmem, hrun⟩ := filter_collapse_parts cfg orig hc hdense hwfE
  rcases hne with hne | hempty
  · have hpos : 0 < (survIdxList (cfg.filterEdges orig.edges)
        orig.tokens.length).length := List.length_pos.2 hne
    obtain ⟨out, hout, -⟩ := newSplitPoints_some _ _ _
      (lookupOldIndex_collapse orig (cfg.filterEdges orig.edges) hdense)
      orig.splitPoints 0 hpos
    refine ⟨_, hrun out hout, ?_, hLmem⟩
    exact upd_reform orig (cfg.filterEdges orig.edges) hdense
  · refine ⟨_, hrun [] (by rw [hempty]; rfl), ?_, hLmem⟩
    exact upd_reform orig (cfg.filterEdges orig.edges) hdense

/-- Witness for C2 at a concrete input: three tokens, one dependency edge
B-C, the allowed value "b"; after collapse the tokens are B and C renumbered
to 0 and 1 and the single edge is rewritten accordingly. -/
theorem claim_C2_collapse_tokens_edges_witness :
    ((⟨false, true, false, ["b"]⟩ : EdgeTokenFilter).collaps = true ∧
      instThreeTok.WellFormed ∧
      (survIdxList (EdgeTokenFilter.filterEdges ⟨false, true, false, ["b"]⟩
          instThreeTok.edges) instThreeTok.tokens.length ≠ [] ∨
        instThreeTok.splitPoints = [])) ∧
    (∃ inst', EdgeTokenFilter.filter ⟨false, true, false, ["b"]⟩ instThreeTok =
        some inst' ∧
      inst'.tokens = (List.enumFrom 0
        (survIdxList (EdgeTokenFilter.filterEdges ⟨false, true, false, ["b"]⟩
          instThreeTok.edges) instThreeTok.tokens.length)).map
        (fun p => (⟨p.1, (instThreeTok.getToken p.2).props⟩ : Token)) ∧
      (∀ x, x ∈ inst'.edges ↔
        ∃ e ∈ EdgeTokenFilter.filterEdges ⟨false, true, false, ["b"]⟩
          instThreeTok.edges,
        x = rewrittenEdge instThreeTok
          (survIdxList (EdgeTokenFilter.filterEdges ⟨false, true, false, ["b"]⟩
            instThreeTok.edges) instThreeTok.tokens.length) e)) :=
  ⟨⟨by decide, by decide, by decide⟩,
    claim_C2_collapse_tokens_edges ⟨false, true, false, ["b"]⟩ instThreeTok
      (by decide) (by decide) (by decide)⟩

/-- The counterexample to C2 as frozen: a well-formed one-token instance with
a split point whose only (empty) filtered edge set leaves no surviving token;
filter with collapse enabled returns no instance at all (the source raises
IndexError at `updatedTokens[newTokenIndex]`), contradicting the claim's
"for every well-formed instance and every filtered edge set". -/
theorem claim_C2_collapse_counterexample :
    instOneTok.WellFormed ∧
    EdgeTokenFilter.filter ⟨false, true, false, ["q"]⟩ instOneTok = none := by
  decide

/-- Claim C3: during collapse (at least one token surviving, split points
non-decreasing as the instance invariant requires), each original split point
is mapped to the new index of the first surviving token whose original index
is at or after the split point, clamped to the last available new index, and
the recomputed instance has one split point per original split point. -/
theorem claim_C3_split_points (cfg : EdgeTokenFilter) (orig : NLPInstance)
    (hc : cfg.collaps = true) (hwf : orig.WellFormed)
    (hsps : orig.splitPoints.Pairwise (· ≤ ·))
    (hne : survIdxList (cfg.filterEdges orig.edges) orig.tokens.length ≠ []) :
    ∃ inst', cfg.filter orig = some inst' ∧
      inst'.splitPoints = orig.splitPoints.map
        (specSplitPoint
          (survIdxList (cfg.filterEdges orig.edges) orig.tokens.length)) ∧
      inst'.splitPoints.length = orig.splitPoints.length := by
  obtain ⟨hdense, hwfE, -⟩ := hwf
  obtain ⟨L, hLmem, hrun⟩ := filter_collapse_parts cfg orig hc hdense hwfE
  have hpos : 0 < (survIdxList (cfg.filterEdges orig.edges)
      orig.tokens.length).length := List.length_pos.2 hne
  have hout := newSplitPoints_spec _ _ _
    (lookupOldIndex_collapse orig (cfg.filterEdges orig.edges) hdense) hne
    orig.splitPoints hsps 0 hpos
    (fun sp _ j hj hjc => absurd hjc (by omega))
  refine ⟨_, hrun _ hout, rfl, ?_⟩
  exact List.length_map _ _

/-- Witness for C3 at a concrete input: split points [1, 2] of the
three-token instance are remapped to [0, 1] after B and C survive. -/
theorem claim_C3_split_points_witness :
    ((⟨false, true, false, ["b"]⟩ : EdgeTokenFilter).collaps = true ∧
      instThreeTok.WellFormed ∧
      instThreeTok.splitPoints.Pairwise (· ≤ ·) ∧
      survIdxList (EdgeTokenFilter.filterEdges ⟨false, true, false, ["b"]⟩
        instThreeTok.edges) instThreeTok.tokens.length ≠ []) ∧
    (∃ inst', EdgeTokenFilter.filter ⟨false, true, false, ["b"]⟩ instThreeTok =
        some inst' ∧
      inst'.splitPoints = instThreeTok.splitPoints.map
        (specSplitPoint
          (survIdxList (EdgeTokenFilter.filterEdges ⟨false, true, false, ["b"]⟩
            instThreeTok.edges) instThreeTok.tokens.length)) ∧
      inst'.splitPoints.length = instThreeTok.splitPoints.length) :=
  ⟨⟨by decide, by decide, by decide, by decide⟩,
    claim_C3_split_points ⟨false, true, false, ["b"]⟩ instThreeTok (by decide)
      (by decide) (by decide) (by decide)⟩

/-- Claim C4, evaluated at the failing input: a well-formed two-token
instance with one dependency edge and one split point; the filter
configuration keeps no edge (no property value contains "zz"), and filter
with collapse enabled does not return (the source raises IndexError at
`updatedTokens[newTokenIndex]` on line 323, since updatedTokens is empty
while a split point remains to process), contradicting the claim that filter
is total on well-formed input including the empty filtered edge set. -/
theorem claim_C4_not_total_on_empty_filtered_set :
    instTwoTok.WellFormed ∧
    EdgeTokenFilter.filter ⟨false, true, false, ["zz"]⟩ instTwoTok = none := by
  decide
